import Mathlib

/-!
Shallow embedding of `pkg/cmd/pulumi/stack/stack_graph.go`.

Modelling conventions:

* Go `resource.URN` is an opaque string key; we use `String`.
* Go maps (`map[resource.URN]*dependencyVertex`, the `depBlame` map) are
  modelled as association lists.  Go map assignment replaces the value of an
  existing key in place and otherwise adds a binding; our `insertVertex` /
  `blameInsert` do the same, keeping first-occurrence key order.  Go map
  iteration order is unspecified; we iterate in that canonical key order (all
  properties proved below are about membership and counts, which do not
  depend on the order).
* Go vertex pointers are identified with their URN keys: after pass 1 the
  vertex map has one entry per distinct URN, so a URN determines the vertex.
  An edge's `to`/`from` pointer fields become `Option String` (`none` is the
  nil pointer).  Mutation through a pointer becomes `modifyVertex` on the
  map at the pointed-to key.
* Each edge allocation gets a fresh `eid` from a counter threaded through the
  builder; two appended occurrences of the same allocation share the `eid`,
  which models Go pointer identity of edge objects.
* The nil-pointer dereference that Go performs when a dependency URN is not
  in the vertex map (`vertexWeDependOn.outgoingEdges = append(...)` with
  `vertexWeDependOn == nil`) is a runtime panic; the builder is therefore
  `Option`-valued and returns `none` exactly when that panic would occur.
  The parent lookup, by contrast, never dereferences a nil pointer: a missing
  parent simply yields a parent edge whose `to` field is nil.
-/

/-- The relevant fields of `resource.State` (sdk), as read by `stack_graph.go`:
`URN`, `Dependencies`, `PropertyDependencies` (a map from property name to
the list of URNs it depends on, modelled as an association list) and
`Parent` (the empty string is Go's zero `URN`, meaning "no parent"). -/
structure ResourceState where
  URN : String
  Dependencies : List String
  PropertyDependencies : List (String × List String)
  Parent : String
deriving DecidableEq, Repr

/-- The relevant field of `deploy.Snapshot`: the ordered resource list. -/
structure Snapshot where
  Resources : List ResourceState
deriving DecidableEq, Repr

/-- `graphCommandOptions` from `stack_graph.go`. -/
structure graphCommandOptions where
  stackName : String
  ignoreParentEdges : Bool
  ignoreDependencyEdges : Bool
  dependencyEdgeColor : String
  parentEdgeColor : String
  shortNodeName : Bool
  dotFragment : String
deriving DecidableEq, Repr

/-- `dependencyEdge`: `to`/`from` are vertex pointers (URN key, `none` = nil);
`eid` models the allocation identity of the Go edge object. -/
structure dependencyEdge where
  eid : Nat
  to_ : Option String
  from_ : Option String
  labels : List String
  color : String
deriving DecidableEq, Repr

/-- `parentEdge`: same conventions as `dependencyEdge`; carries no labels. -/
structure parentEdge where
  eid : Nat
  to_ : Option String
  from_ : Option String
  color : String
deriving DecidableEq, Repr

/-- The `graph.Edge` interface: an edge is either a `dependencyEdge` or a
`parentEdge`. -/
inductive GraphEdge where
  | dep (e : dependencyEdge)
  | par (e : parentEdge)
deriving DecidableEq, Repr

/-- Go `strings.Join`. -/
def stringsJoin : List String → String → String
  | [], _ => ""
  | [s], _ => s
  | s :: t :: rest, sep => s ++ sep ++ stringsJoin (t :: rest) sep

/-- `dependencyEdge.Label` / `parentEdge.Label`. -/
def GraphEdge.Label : GraphEdge → String
  | .dep e => stringsJoin e.labels ", "
  | .par _ => ""

/-- `dependencyEdge.Color` / `parentEdge.Color`. -/
def GraphEdge.Color : GraphEdge → String
  | .dep e => e.color
  | .par e => e.color

/-- `dependencyEdge.To` / `parentEdge.To` (a vertex pointer, as URN key). -/
def GraphEdge.To : GraphEdge → Option String
  | .dep e => e.to_
  | .par e => e.to_

/-- `dependencyEdge.From` / `parentEdge.From`. -/
def GraphEdge.From : GraphEdge → Option String
  | .dep e => e.from_
  | .par e => e.from_

/-- Is this edge a `dependencyEdge`? -/
def isDepEdge : GraphEdge → Bool
  | .dep _ => true
  | .par _ => false

/-- Is this edge a `parentEdge`? -/
def isParEdge : GraphEdge → Bool
  | .dep _ => false
  | .par _ => true

/-- `dependencyVertex`.  The Go back-reference `graph` is used only to look
vertices up during construction; we pass the vertex map explicitly instead,
so the field is dropped here. -/
structure dependencyVertex where
  resource : ResourceState
  incomingEdges : List GraphEdge
  outgoingEdges : List GraphEdge
  useShortName : Bool
deriving DecidableEq, Repr

/-- `dependencyVertex.Ins`. -/
def dependencyVertex.Ins (v : dependencyVertex) : List GraphEdge :=
  v.incomingEdges

/-- `dependencyVertex.Outs`. -/
def dependencyVertex.Outs (v : dependencyVertex) : List GraphEdge :=
  v.outgoingEdges

/-- The vertex map `map[resource.URN]*dependencyVertex`, as an association
list in first-insertion key order. -/
abbrev VertexMap := List (String × dependencyVertex)

/-- `dependencyGraph`: a thin wrapper around the vertex map. -/
structure dependencyGraph where
  vertices : VertexMap
deriving DecidableEq, Repr

/-- Go map read `m[k]` (first matching binding; bindings have distinct keys). -/
def lookupVertex : VertexMap → String → Option dependencyVertex
  | [], _ => none
  | (k, v) :: rest, u => if k = u then some v else lookupVertex rest u

/-- Go map write `m[k] = v`: replace the binding if the key is present,
otherwise add a new binding. -/
def insertVertex : VertexMap → String → dependencyVertex → VertexMap
  | [], k, v => [(k, v)]
  | (k', v') :: rest, k, v =>
    if k' = k then (k', v) :: rest else (k', v') :: insertVertex rest k v

/-- Mutation through a vertex pointer: update the binding at key `k`. -/
def modifyVertex : VertexMap → String → (dependencyVertex → dependencyVertex) → VertexMap
  | [], _, _ => []
  | (k', v') :: rest, k, f =>
    if k' = k then (k', f v') :: rest else (k', v') :: modifyVertex rest k f

/-- The key list of the vertex map. -/
def keysOf (m : VertexMap) : List String :=
  m.map Prod.fst

/-- `dependencyGraph.Roots`: one synthetic `dependencyEdge` per vertex with
`to` the vertex and `from` nil; `labels` and `color` are Go zero values.
(Root edges are fresh allocations outside the builder counter; their
identity is irrelevant, so they all carry `eid = 0`.) -/
def dependencyGraph.Roots (dg : dependencyGraph) : List GraphEdge :=
  dg.vertices.map fun kv =>
    GraphEdge.dep { eid := 0, to_ := some kv.1, from_ := none, labels := [], color := "" }

/-- The vertex allocated in pass 1 of `makeDependencyGraph` for one resource. -/
def initVertex (short : Bool) (r : ResourceState) : dependencyVertex :=
  { resource := r, incomingEdges := [], outgoingEdges := [], useShortName := short }

/-- Pass 1 of `makeDependencyGraph`: allocate one vertex per resource record,
in snapshot order (`dg.vertices[resource.URN] = vertex`). -/
def pass1 (short : Bool) : List ResourceState → VertexMap → VertexMap
  | [], m => m
  | r :: rest, m => pass1 short rest (insertVertex m r.URN (initVertex short r))

/-- One step of the `depBlame` construction:
`depBlame[dep] = append(depBlame[dep], string(k))`. -/
def blameInsert : List (String × List String) → String → String → List (String × List String)
  | [], dep, k => [(dep, [k])]
  | (d, ls) :: rest, dep, k =>
    if d = dep then (d, ls ++ [k]) :: rest else (d, ls) :: blameInsert rest dep k

/-- The `depBlame` map: invert `PropertyDependencies` into a map from
dependency URN to the list of property names that declared it. -/
def mkDepBlame (pd : List (String × List String)) : List (String × List String) :=
  pd.foldl (fun m kd => kd.2.foldl (fun m2 dep => blameInsert m2 dep kd.1) m) []

/-- Go map read `depBlame[dep]` (a missing key reads as the nil slice). -/
def blameLookup : List (String × List String) → String → List String
  | [], _ => []
  | (d, ls) :: rest, dep => if d = dep then ls else blameLookup rest dep

/-- `vertex.incomingEdges = append(vertex.incomingEdges, ...)`. -/
def appendIn (es : List GraphEdge) (v : dependencyVertex) : dependencyVertex :=
  { v with incomingEdges := v.incomingEdges ++ es }

/-- `vertex.outgoingEdges = append(vertex.outgoingEdges, ...)`. -/
def appendOut (es : List GraphEdge) (v : dependencyVertex) : dependencyVertex :=
  { v with outgoingEdges := v.outgoingEdges ++ es }

/-- The list of dependency edges allocated for one vertex's `Dependencies`
list, with consecutive `eid`s starting at `c`. -/
def mkDepEdges (selfUrn : String) (blame : List (String × List String))
    (color : String) : List String → Nat → List GraphEdge
  | [], _ => []
  | d :: rest, c =>
    GraphEdge.dep
        { eid := c, to_ := some selfUrn, from_ := some d,
          labels := blameLookup blame d, color := color } ::
      mkDepEdges selfUrn blame color rest (c + 1)

/-- The dependency-edge loop of `makeDependencyGraph` for one vertex:
for each `dep` in `Dependencies`, look the target vertex up, allocate one
edge, and append it to the current vertex's incoming list and the target's
outgoing list.  When the lookup misses, Go's
`vertexWeDependOn.outgoingEdges = append(...)` dereferences a nil pointer
and panics; we return `none` there. -/
def processDeps (selfUrn : String) (blame : List (String × List String))
    (color : String) : List String → VertexMap × Nat → Option (VertexMap × Nat)
  | [], st => some st
  | dep :: rest, st =>
    match lookupVertex st.1 dep with
    | none => none
    | some _ =>
      let edge : GraphEdge :=
        GraphEdge.dep
          { eid := st.2, to_ := some selfUrn, from_ := some dep,
            labels := blameLookup blame dep, color := color }
      let m1 := modifyVertex st.1 selfUrn (appendIn [edge])
      let m2 := modifyVertex m1 dep (appendOut [edge])
      processDeps selfUrn blame color rest (m2, st.2 + 1)

/-- The parent-edge step of `makeDependencyGraph` for one vertex: when the
resource has a non-empty `Parent`, look the parent vertex up (a miss yields
the nil pointer, i.e. `none`, without failing) and append one `parentEdge`
to the current vertex's outgoing list only. -/
def processParent (selfUrn parent color : String) (st : VertexMap × Nat) : VertexMap × Nat :=
  if parent ≠ "" then
    let parentVertex := lookupVertex st.1 parent
    let edge : GraphEdge :=
      GraphEdge.par
        { eid := st.2,
          to_ := if parentVertex.isSome then some parent else none,
          from_ := some selfUrn, color := color }
    (modifyVertex st.1 selfUrn (appendOut [edge]), st.2 + 1)
  else st

/-- Pass 2 of `makeDependencyGraph`: for each vertex of the map (iterated by
key), add its dependency edges (unless ignored) and its parent edge (unless
ignored).  The `none` branch of the key lookup is unreachable when the key
list is the map's own key list. -/
def pass2 (opts : graphCommandOptions) : List String → VertexMap × Nat → Option (VertexMap × Nat)
  | [], st => some st
  | k :: rest, st =>
    match lookupVertex st.1 k with
    | none => none
    | some v =>
      match (if opts.ignoreDependencyEdges then some st
             else processDeps k (mkDepBlame v.resource.PropertyDependencies)
                    opts.dependencyEdgeColor v.resource.Dependencies st) with
      | none => none
      | some st1 =>
        pass2 opts rest
          (if opts.ignoreParentEdges then st1
           else processParent k v.resource.Parent opts.parentEdgeColor st1)

/-- `makeDependencyGraph`: pass 1 then pass 2; `none` models the nil-pointer
panic on a dependency URN that has no vertex. -/
def makeDependencyGraph (snapshot : Snapshot) (opts : graphCommandOptions) :
    Option dependencyGraph :=
  let m := pass1 opts.shortNodeName snapshot.Resources []
  match pass2 opts (keysOf m) (m, 0) with
  | none => none
  | some st => some { vertices := st.1 }

/-- The incoming edge list of the vertex at key `k` (none if no vertex). -/
def incomingOf (m : VertexMap) (k : String) : Option (List GraphEdge) :=
  (lookupVertex m k).map (·.incomingEdges)

/-- The outgoing edge list of the vertex at key `k`. -/
def outgoingOf (m : VertexMap) (k : String) : Option (List GraphEdge) :=
  (lookupVertex m k).map (·.outgoingEdges)

/-- The resource record of the vertex at key `k`. -/
def resourceOf (m : VertexMap) (k : String) : Option ResourceState :=
  (lookupVertex m k).map (·.resource)

/-- Does this edge point at the vertex with URN `k`? -/
def edgeToIs (e : GraphEdge) (k : String) : Bool :=
  decide (GraphEdge.To e = some k)

/-- Does this edge come from the vertex with URN `k`? -/
def edgeFromIs (e : GraphEdge) (k : String) : Bool :=
  decide (GraphEdge.From e = some k)

/-- A dependency edge from the vertex of `d` to the vertex of `r`. -/
def isDepToFrom (r d : String) (e : GraphEdge) : Bool :=
  isDepEdge e && edgeToIs e r && edgeFromIs e d

/-- Concatenate edge lists. -/
def edgesConcat (ls : List (List GraphEdge)) : List GraphEdge :=
  ls.foldr (· ++ ·) []

/-- Every edge stored in an incoming list of the graph. -/
def allIncoming (g : dependencyGraph) : List GraphEdge :=
  edgesConcat (g.vertices.map fun kv => kv.2.incomingEdges)

/-- Every edge stored in an outgoing list of the graph. -/
def allOutgoing (g : dependencyGraph) : List GraphEdge :=
  edgesConcat (g.vertices.map fun kv => kv.2.outgoingEdges)

/-- How many dependency-edge occurrences the graph's edge lists hold. -/
def depEdgeCount (g : dependencyGraph) : Nat :=
  ((allIncoming g).filter isDepEdge).length + ((allOutgoing g).filter isDepEdge).length

/-- How many parent-edge occurrences the graph's edge lists hold. -/
def parEdgeCount (g : dependencyGraph) : Nat :=
  ((allIncoming g).filter isParEdge).length + ((allOutgoing g).filter isParEdge).length

/-- The last resource record in snapshot order carrying URN `u` (the record a
Go map left at key `u` after repeated assignment). -/
def lastWithUrn : List ResourceState → String → Option ResourceState
  | [], _ => none
  | r :: rest, u =>
    match lastWithUrn rest u with
    | some x => some x
    | none => if r.URN = u then some r else none

/-- Observable side effects of the `stack graph` command body, in order. -/
inductive CmdEffect where
  | graphBuilt
  | fileCreated (path : String)
  | dotPrinted
  | confirmationPrinted (path : String)
  | fileClosed
deriving DecidableEq, Repr

/-- Go `%q` on a URN-free stack name: surrounding double quotes. -/
def quoteGo (s : String) : String :=
  "\"" ++ s ++ "\""

/-- The `RunE` body of `newStackGraphCmd`, with the external collaborators
(`RequireStack`, `s.Snapshot`, `os.Create`, `dotconv.Print`, `file.Close`)
abstracted as supplied results.  Returns the command's result and the trace
of observable effects.  A `none` from `makeDependencyGraph` is the modelled
panic: the command crashes before creating the file (`dotconv.Print` failure
still closes the file before returning, result discarded; its partial writes
are not modelled beyond the `fileCreated` effect). -/
def runStackGraphCmd (cmdOpts : graphCommandOptions) (outputPath : String)
    (requireStackResult : Except String Unit)
    (snapshotResult : Except String (Option Snapshot))
    (createResult : Except String Unit)
    (printResult : Except String Unit)
    (closeResult : Except String Unit) : Except String Unit × List CmdEffect :=
  match requireStackResult with
  | .error e => (.error e, [])
  | .ok _ =>
    match snapshotResult with
    | .error e => (.error e, [])
    | .ok none =>
      (.error ("unable to find snapshot for stack " ++ quoteGo cmdOpts.stackName), [])
    | .ok (some snap) =>
      match makeDependencyGraph snap cmdOpts with
      | none =>
        (.error "panic: runtime error: invalid memory address or nil pointer dereference", [])
      | some _dg =>
        match createResult with
        | .error e => (.error e, [CmdEffect.graphBuilt])
        | .ok _ =>
          match printResult with
          | .error e =>
            (.error e,
             [CmdEffect.graphBuilt, CmdEffect.fileCreated outputPath, CmdEffect.fileClosed])
          | .ok _ =>
            (closeResult.map fun _ => (),
             [CmdEffect.graphBuilt, CmdEffect.fileCreated outputPath, CmdEffect.dotPrinted,
              CmdEffect.confirmationPrinted outputPath, CmdEffect.fileClosed])

/-- The default option values installed by `newStackGraphCmd`'s flag set. -/
def optsDefault : graphCommandOptions :=
  { stackName := "dev", ignoreParentEdges := false, ignoreDependencyEdges := false,
    dependencyEdgeColor := "#246C60", parentEdgeColor := "#AA6639",
    shortNodeName := false, dotFragment := "" }

/-- Fixture: a resource record. -/
def mkRes (u : String) (deps : List String) (pd : List (String × List String))
    (p : String) : ResourceState :=
  { URN := u, Dependencies := deps, PropertyDependencies := pd, Parent := p }

/-- The dependency edges pointing at the vertex of `r` inside the outgoing
list of the vertex at key `u`. -/
def outToFilter (r : String) (m : VertexMap) (u : String) : Option (List GraphEdge) :=
  (outgoingOf m u).map (·.filter fun e => isDepEdge e && edgeToIs e r)

/-- The parent edges inside the outgoing list of the vertex at key `u`. -/
def outParFilter (m : VertexMap) (u : String) : Option (List GraphEdge) :=
  (outgoingOf m u).map (·.filter isParEdge)

/-- The label list stored on a dependency edge (a parent edge stores none). -/
def depLabels : GraphEdge → List String
  | .dep e => e.labels
  | .par _ => []

/-! ### Basic facts about the vertex map -/

@[simp] theorem appendIn_incoming (es : List GraphEdge) (v : dependencyVertex) :
    (appendIn es v).incomingEdges = v.incomingEdges ++ es := rfl

@[simp] theorem appendIn_outgoing (es : List GraphEdge) (v : dependencyVertex) :
    (appendIn es v).outgoingEdges = v.outgoingEdges := rfl

@[simp] theorem appendIn_resource (es : List GraphEdge) (v : dependencyVertex) :
    (appendIn es v).resource = v.resource := rfl

@[simp] theorem appendOut_incoming (es : List GraphEdge) (v : dependencyVertex) :
    (appendOut es v).incomingEdges = v.incomingEdges := rfl

@[simp] theorem appendOut_outgoing (es : List GraphEdge) (v : dependencyVertex) :
    (appendOut es v).outgoingEdges = v.outgoingEdges ++ es := rfl

@[simp] theorem appendOut_resource (es : List GraphEdge) (v : dependencyVertex) :
    (appendOut es v).resource = v.resource := rfl

theorem lookupVertex_modify_self (m : VertexMap) (k : String)
    (f : dependencyVertex → dependencyVertex) :
    lookupVertex (modifyVertex m k f) k = (lookupVertex m k).map f := by
  induction m with
  | nil => rfl
  | cons kv rest ih =>
    obtain ⟨k1, v1⟩ := kv
    by_cases h : k1 = k
    · simp [modifyVertex, lookupVertex, h]
    · simp [modifyVertex, lookupVertex, h, ih]

theorem lookupVertex_modify_ne (m : VertexMap) (k u : String)
    (f : dependencyVertex → dependencyVertex) (h : u ≠ k) :
    lookupVertex (modifyVertex m k f) u = lookupVertex m u := by
  induction m with
  | nil => rfl
  | cons kv rest ih =>
    obtain ⟨k1, v1⟩ := kv
    by_cases h1 : k1 = k
    · simp [modifyVertex, lookupVertex, h1, Ne.symm h]
    · simp [modifyVertex, lookupVertex, h1, ih]

theorem keysOf_modify (m : VertexMap) (k : String)
    (f : dependencyVertex → dependencyVertex) :
    keysOf (modifyVertex m k f) = keysOf m := by
  induction m with
  | nil => rfl
  | cons kv rest ih =>
    obtain ⟨k1, v1⟩ := kv
    by_cases h : k1 = k
    · simp [modifyVertex, keysOf, h]
    · simp [modifyVertex, keysOf, h] at ih ⊢
      exact ih

theorem lookupVertex_insert_self (m : VertexMap) (k : String) (v : dependencyVertex) :
    lookupVertex (insertVertex m k v) k = some v := by
  induction m with
  | nil => simp [insertVertex, lookupVertex]
  | cons kv rest ih =>
    obtain ⟨k1, v1⟩ := kv
    by_cases h : k1 = k
    · simp [insertVertex, lookupVertex, h]
    · simp [insertVertex, lookupVertex, h, ih]

@[simp] theorem keysOf_nil : keysOf [] = [] := rfl

@[simp] theorem keysOf_cons (k1 : String) (v1 : dependencyVertex) (rest : VertexMap) :
    keysOf ((k1, v1) :: rest) = k1 :: keysOf rest := rfl

theorem lookupVertex_insert_ne (m : VertexMap) (k u : String) (v : dependencyVertex)
    (h : u ≠ k) : lookupVertex (insertVertex m k v) u = lookupVertex m u := by
  induction m with
  | nil => simp [insertVertex, lookupVertex, Ne.symm h]
  | cons kv rest ih =>
    obtain ⟨k1, v1⟩ := kv
    by_cases h1 : k1 = k
    · simp [insertVertex, lookupVertex, h1, Ne.symm h]
    · simp [insertVertex, lookupVertex, h1, ih]

theorem keysOf_insert_mem (m : VertexMap) (k : String) (v : dependencyVertex)
    (h : k ∈ keysOf m) : keysOf (insertVertex m k v) = keysOf m := by
  induction m with
  | nil => simp [keysOf] at h
  | cons kv rest ih =>
    obtain ⟨k1, v1⟩ := kv
    by_cases h1 : k1 = k
    · simp [insertVertex, keysOf, h1]
    · have h2 : k ∈ keysOf rest := by
        rcases List.mem_cons.mp (by simpa using h) with hh | hh
        · exact absurd hh.symm h1
        · exact hh
      simp only [insertVertex, if_neg h1, keysOf_cons]
      rw [ih h2]

theorem keysOf_insert_not_mem (m : VertexMap) (k : String) (v : dependencyVertex)
    (h : k ∉ keysOf m) : keysOf (insertVertex m k v) = keysOf m ++ [k] := by
  induction m with
  | nil => simp [insertVertex, keysOf]
  | cons kv rest ih =>
    obtain ⟨k1, v1⟩ := kv
    have h1 : k1 ≠ k := fun hh => h (by simp [hh])
    have h2 : k ∉ keysOf rest := fun hh => h (by simp [hh])
    simp only [insertVertex, if_neg h1, keysOf_cons, ih h2, List.cons_append]

theorem mem_keysOf_iff_isSome (m : VertexMap) (k : String) :
    k ∈ keysOf m ↔ (lookupVertex m k).isSome := by
  induction m with
  | nil => simp [keysOf, lookupVertex]
  | cons kv rest ih =>
    obtain ⟨k1, v1⟩ := kv
    by_cases h : k1 = k
    · simp [keysOf, lookupVertex, h]
    · simp [keysOf, lookupVertex, h, Ne.symm h] at ih ⊢
      exact ih

theorem keysOf_insert_nodup (m : VertexMap) (k : String) (v : dependencyVertex)
    (h : (keysOf m).Nodup) : (keysOf (insertVertex m k v)).Nodup := by
  by_cases hk : k ∈ keysOf m
  · rwa [keysOf_insert_mem m k v hk]
  · rw [keysOf_insert_not_mem m k v hk]
    exact h.append (List.nodup_singleton k)
      (fun x hx hxk => hk (by rwa [List.mem_singleton.mp hxk] at hx))

theorem incomingOf_modify_appendOut (m : VertexMap) (k u : String) (es : List GraphEdge) :
    incomingOf (modifyVertex m k (appendOut es)) u = incomingOf m u := by
  unfold incomingOf
  by_cases h : u = k
  · subst h
    rw [lookupVertex_modify_self]
    cases lookupVertex m u <;> simp
  · rw [lookupVertex_modify_ne _ _ _ _ h]

theorem outgoingOf_modify_appendIn (m : VertexMap) (k u : String) (es : List GraphEdge) :
    outgoingOf (modifyVertex m k (appendIn es)) u = outgoingOf m u := by
  unfold outgoingOf
  by_cases h : u = k
  · subst h
    rw [lookupVertex_modify_self]
    cases lookupVertex m u <;> simp
  · rw [lookupVertex_modify_ne _ _ _ _ h]

theorem resourceOf_modify_appendIn (m : VertexMap) (k u : String) (es : List GraphEdge) :
    resourceOf (modifyVertex m k (appendIn es)) u = resourceOf m u := by
  unfold resourceOf
  by_cases h : u = k
  · subst h
    rw [lookupVertex_modify_self]
    cases lookupVertex m u <;> simp
  · rw [lookupVertex_modify_ne _ _ _ _ h]

theorem resourceOf_modify_appendOut (m : VertexMap) (k u : String) (es : List GraphEdge) :
    resourceOf (modifyVertex m k (appendOut es)) u = resourceOf m u := by
  unfold resourceOf
  by_cases h : u = k
  · subst h
    rw [lookupVertex_modify_self]
    cases lookupVertex m u <;> simp
  · rw [lookupVertex_modify_ne _ _ _ _ h]

theorem incomingOf_modify_appendIn_self (m : VertexMap) (k : String) (es : List GraphEdge) :
    incomingOf (modifyVertex m k (appendIn es)) k = (incomingOf m k).map (· ++ es) := by
  unfold incomingOf
  rw [lookupVertex_modify_self]
  cases lookupVertex m k <;> simp

theorem incomingOf_modify_appendIn_ne (m : VertexMap) (k u : String) (es : List GraphEdge)
    (h : u ≠ k) :
    incomingOf (modifyVertex m k (appendIn es)) u = incomingOf m u := by
  unfold incomingOf
  rw [lookupVertex_modify_ne _ _ _ _ h]

theorem outgoingOf_modify_appendOut_self (m : VertexMap) (k : String) (es : List GraphEdge) :
    outgoingOf (modifyVertex m k (appendOut es)) k = (outgoingOf m k).map (· ++ es) := by
  unfold outgoingOf
  rw [lookupVertex_modify_self]
  cases lookupVertex m k <;> simp

theorem outgoingOf_modify_appendOut_ne (m : VertexMap) (k u : String) (es : List GraphEdge)
    (h : u ≠ k) :
    outgoingOf (modifyVertex m k (appendOut es)) u = outgoingOf m u := by
  unfold outgoingOf
  rw [lookupVertex_modify_ne _ _ _ _ h]

theorem isSome_lookup_modify (m : VertexMap) (k u : String)
    (f : dependencyVertex → dependencyVertex) :
    (lookupVertex (modifyVertex m k f) u).isSome = (lookupVertex m u).isSome := by
  by_cases h : u = k
  · subst h
    rw [lookupVertex_modify_self]
    cases lookupVertex m u <;> simp
  · rw [lookupVertex_modify_ne _ _ _ _ h]

/-! ### Characterizing one vertex's dependency-edge loop -/

theorem processDeps_counter (s : String) (b : List (String × List String)) (col : String) :
    ∀ (deps : List String) (m : VertexMap) (c : Nat) (st' : VertexMap × Nat),
      processDeps s b col deps (m, c) = some st' → st'.2 = c + deps.length := by
  intro deps
  induction deps with
  | nil =>
    intro m c st' h
    simp only [processDeps, Option.some.injEq] at h
    rw [← h]
    simp
  | cons d rest ih =>
    intro m c st' h
    cases hl : lookupVertex m d with
    | none => simp [processDeps, hl] at h
    | some w =>
      simp only [processDeps, hl] at h
      have h2 := ih _ _ _ h
      simp only [List.length_cons] at h2 ⊢
      omega

theorem processDeps_keysOf (s : String) (b : List (String × List String)) (col : String) :
    ∀ (deps : List String) (m : VertexMap) (c : Nat) (st' : VertexMap × Nat),
      processDeps s b col deps (m, c) = some st' → keysOf st'.1 = keysOf m := by
  intro deps
  induction deps with
  | nil =>
    intro m c st' h
    simp only [processDeps, Option.some.injEq] at h
    rw [← h]
  | cons d rest ih =>
    intro m c st' h
    cases hl : lookupVertex m d with
    | none => simp [processDeps, hl] at h
    | some w =>
      simp only [processDeps, hl] at h
      rw [ih _ _ _ h, keysOf_modify, keysOf_modify]

theorem processDeps_resourceOf (s : String) (b : List (String × List String)) (col : String) :
    ∀ (deps : List String) (m : VertexMap) (c : Nat) (st' : VertexMap × Nat),
      processDeps s b col deps (m, c) = some st' →
      ∀ u, resourceOf st'.1 u = resourceOf m u := by
  intro deps
  induction deps with
  | nil =>
    intro m c st' h u
    simp only [processDeps, Option.some.injEq] at h
    rw [← h]
  | cons d rest ih =>
    intro m c st' h u
    cases hl : lookupVertex m d with
    | none => simp [processDeps, hl] at h
    | some w =>
      simp only [processDeps, hl] at h
      rw [ih _ _ _ h u, resourceOf_modify_appendOut, resourceOf_modify_appendIn]

theorem processDeps_incomingOf_self (s : String) (b : List (String × List String)) (col : String) :
    ∀ (deps : List String) (m : VertexMap) (c : Nat) (st' : VertexMap × Nat),
      processDeps s b col deps (m, c) = some st' →
      incomingOf st'.1 s = (incomingOf m s).map (· ++ mkDepEdges s b col deps c) := by
  intro deps
  induction deps with
  | nil =>
    intro m c st' h
    simp only [processDeps, Option.some.injEq] at h
    rw [← h]
    cases incomingOf m s <;> simp [mkDepEdges]
  | cons d rest ih =>
    intro m c st' h
    cases hl : lookupVertex m d with
    | none => simp [processDeps, hl] at h
    | some w =>
      simp only [processDeps, hl] at h
      rw [ih _ _ _ h, incomingOf_modify_appendOut, incomingOf_modify_appendIn_self]
      cases incomingOf m s <;> simp [mkDepEdges]

theorem processDeps_incomingOf_ne (s : String) (b : List (String × List String)) (col : String) :
    ∀ (deps : List String) (m : VertexMap) (c : Nat) (st' : VertexMap × Nat),
      processDeps s b col deps (m, c) = some st' →
      ∀ u, u ≠ s → incomingOf st'.1 u = incomingOf m u := by
  intro deps
  induction deps with
  | nil =>
    intro m c st' h u hu
    simp only [processDeps, Option.some.injEq] at h
    rw [← h]
  | cons d rest ih =>
    intro m c st' h u hu
    cases hl : lookupVertex m d with
    | none => simp [processDeps, hl] at h
    | some w =>
      simp only [processDeps, hl] at h
      rw [ih _ _ _ h u hu, incomingOf_modify_appendOut, incomingOf_modify_appendIn_ne _ _ _ _ hu]

theorem processDeps_outgoingOf (s : String) (b : List (String × List String)) (col : String) :
    ∀ (deps : List String) (m : VertexMap) (c : Nat) (st' : VertexMap × Nat),
      processDeps s b col deps (m, c) = some st' →
      ∀ u, outgoingOf st'.1 u =
        (outgoingOf m u).map
          (· ++ (mkDepEdges s b col deps c).filter (fun e => edgeFromIs e u)) := by
  intro deps
  induction deps with
  | nil =>
    intro m c st' h u
    simp only [processDeps, Option.some.injEq] at h
    rw [← h]
    cases outgoingOf m u <;> simp [mkDepEdges]
  | cons d rest ih =>
    intro m c st' h u
    cases hl : lookupVertex m d with
    | none => simp [processDeps, hl] at h
    | some w =>
      simp only [processDeps, hl] at h
      rw [ih _ _ _ h u]
      by_cases hu : u = d
      · subst hu
        rw [outgoingOf_modify_appendOut_self, outgoingOf_modify_appendIn]
        have hfe : edgeFromIs (GraphEdge.dep
            { eid := c, to_ := some s, from_ := some u,
              labels := blameLookup b u, color := col }) u = true := by
          simp [edgeFromIs, GraphEdge.From]
        cases outgoingOf m u <;> simp [mkDepEdges, hfe]
      · rw [outgoingOf_modify_appendOut_ne _ _ _ _ hu, outgoingOf_modify_appendIn]
        have hfe : edgeFromIs (GraphEdge.dep
            { eid := c, to_ := some d, from_ := some d,
              labels := blameLookup b d, color := col }) u = false := by
          simp [edgeFromIs, GraphEdge.From]
          exact Ne.symm hu
        cases outgoingOf m u <;> simp [mkDepEdges, edgeFromIs, GraphEdge.From, Ne.symm hu]

/-! ### Characterizing one vertex's parent-edge step -/

theorem processParent_empty (s col : String) (st : VertexMap × Nat) :
    processParent s "" col st = st := by
  simp [processParent]

theorem processParent_nonempty (s p col : String) (st : VertexMap × Nat) (hp : p ≠ "") :
    processParent s p col st =
      (modifyVertex st.1 s (appendOut
        [GraphEdge.par
          { eid := st.2, to_ := if (lookupVertex st.1 p).isSome then some p else none,
            from_ := some s, color := col }]), st.2 + 1) := by
  simp [processParent, hp]

theorem processParent_keysOf (s p col : String) (st : VertexMap × Nat) :
    keysOf (processParent s p col st).1 = keysOf st.1 := by
  by_cases hp : p = ""
  · rw [hp, processParent_empty]
  · rw [processParent_nonempty s p col st hp, keysOf_modify]

theorem processParent_resourceOf (s p col : String) (st : VertexMap × Nat) (u : String) :
    resourceOf (processParent s p col st).1 u = resourceOf st.1 u := by
  by_cases hp : p = ""
  · rw [hp, processParent_empty]
  · rw [processParent_nonempty s p col st hp, resourceOf_modify_appendOut]

theorem processParent_incomingOf (s p col : String) (st : VertexMap × Nat) (u : String) :
    incomingOf (processParent s p col st).1 u = incomingOf st.1 u := by
  by_cases hp : p = ""
  · rw [hp, processParent_empty]
  · rw [processParent_nonempty s p col st hp, incomingOf_modify_appendOut]

theorem processParent_outgoingOf_ne (s p col : String) (st : VertexMap × Nat)
    (u : String) (hu : u ≠ s) :
    outgoingOf (processParent s p col st).1 u = outgoingOf st.1 u := by
  by_cases hp : p = ""
  · rw [hp, processParent_empty]
  · rw [processParent_nonempty s p col st hp]
    exact outgoingOf_modify_appendOut_ne _ _ _ _ hu

theorem processParent_outgoingOf_self (s p col : String) (st : VertexMap × Nat)
    (hp : p ≠ "") :
    outgoingOf (processParent s p col st).1 s =
      (outgoingOf st.1 s).map
        (· ++ [GraphEdge.par
          { eid := st.2, to_ := if (lookupVertex st.1 p).isSome then some p else none,
            from_ := some s, color := col }]) := by
  rw [processParent_nonempty s p col st hp]
  exact outgoingOf_modify_appendOut_self _ _ _

theorem processParent_outToFilter (r s p col : String) (st : VertexMap × Nat) (u : String) :
    outToFilter r (processParent s p col st).1 u = outToFilter r st.1 u := by
  unfold outToFilter
  by_cases hu : u = s
  · subst hu
    by_cases hp : p = ""
    · rw [hp, processParent_empty]
    · rw [processParent_outgoingOf_self u p col st hp]
      cases outgoingOf st.1 u <;> simp [isDepEdge]
  · rw [processParent_outgoingOf_ne s p col st u hu]

theorem processParent_outParFilter_ne (s p col : String) (st : VertexMap × Nat)
    (u : String) (hu : u ≠ s) :
    outParFilter (processParent s p col st).1 u = outParFilter st.1 u := by
  unfold outParFilter
  rw [processParent_outgoingOf_ne s p col st u hu]

theorem processParent_outParFilter_self (s p col : String) (st : VertexMap × Nat)
    (hp : p ≠ "") :
    outParFilter (processParent s p col st).1 s =
      (outParFilter st.1 s).map
        (· ++ [GraphEdge.par
          { eid := st.2, to_ := if (lookupVertex st.1 p).isSome then some p else none,
            from_ := some s, color := col }]) := by
  unfold outParFilter
  rw [processParent_outgoingOf_self s p col st hp]
  cases outgoingOf st.1 s <;> simp [isParEdge]

/-! ### The edges allocated for one dependency list -/

theorem mkDepEdges_mem (s : String) (b : List (String × List String)) (col : String) :
    ∀ (deps : List String) (c : Nat) (e : GraphEdge), e ∈ mkDepEdges s b col deps c →
      ∃ d cc, d ∈ deps ∧
        e = GraphEdge.dep
          { eid := cc, to_ := some s, from_ := some d,
            labels := blameLookup b d, color := col } := by
  intro deps
  induction deps with
  | nil => intro c e h; simp [mkDepEdges] at h
  | cons d rest ih =>
    intro c e h
    simp only [mkDepEdges] at h
    rcases List.mem_cons.mp h with h | h
    · exact ⟨d, c, List.mem_cons_self _ _, h⟩
    · obtain ⟨d1, cc, hd, he⟩ := ih (c + 1) e h
      exact ⟨d1, cc, List.mem_cons_of_mem _ hd, he⟩

theorem mkDepEdges_to_self (s : String) (b : List (String × List String)) (col : String)
    (deps : List String) (c : Nat) (e : GraphEdge) (h : e ∈ mkDepEdges s b col deps c) :
    (isDepEdge e && edgeToIs e s) = true := by
  obtain ⟨d, cc, hd, he⟩ := mkDepEdges_mem s b col deps c e h
  subst he
  simp [isDepEdge, edgeToIs, GraphEdge.To]

theorem mkDepEdges_to_ne (r s : String) (b : List (String × List String)) (col : String)
    (deps : List String) (c : Nat) (e : GraphEdge) (h : e ∈ mkDepEdges s b col deps c)
    (hr : s ≠ r) : (isDepEdge e && edgeToIs e r) = false := by
  obtain ⟨d, cc, hd, he⟩ := mkDepEdges_mem s b col deps c e h
  subst he
  simp [isDepEdge, edgeToIs, GraphEdge.To, hr]

theorem mkDepEdges_not_par (s : String) (b : List (String × List String)) (col : String)
    (deps : List String) (c : Nat) (e : GraphEdge) (h : e ∈ mkDepEdges s b col deps c) :
    isParEdge e = false := by
  obtain ⟨d, cc, hd, he⟩ := mkDepEdges_mem s b col deps c e h
  subst he
  simp [isParEdge]

theorem mkDepEdges_filter_to_self (s : String) (b : List (String × List String)) (col : String)
    (deps : List String) (c : Nat) (p : GraphEdge → Bool) :
    ((mkDepEdges s b col deps c).filter p).filter (fun e => isDepEdge e && edgeToIs e s) =
      (mkDepEdges s b col deps c).filter p := by
  apply List.filter_eq_self.mpr
  intro e he
  exact mkDepEdges_to_self s b col deps c e (List.mem_filter.mp he).1

theorem mkDepEdges_filter_to_ne (r s : String) (b : List (String × List String)) (col : String)
    (deps : List String) (c : Nat) (p : GraphEdge → Bool) (hr : s ≠ r) :
    ((mkDepEdges s b col deps c).filter p).filter (fun e => isDepEdge e && edgeToIs e r) = [] := by
  apply List.filter_eq_nil_iff.mpr
  intro e he
  simp [mkDepEdges_to_ne r s b col deps c e (List.mem_filter.mp he).1 hr]

theorem mkDepEdges_filter_par (s : String) (b : List (String × List String)) (col : String)
    (deps : List String) (c : Nat) (p : GraphEdge → Bool) :
    ((mkDepEdges s b col deps c).filter p).filter isParEdge = [] := by
  apply List.filter_eq_nil_iff.mpr
  intro e he
  simp [mkDepEdges_not_par s b col deps c e (List.mem_filter.mp he).1]

theorem processDeps_outToFilter_self (s : String) (b : List (String × List String))
    (col : String) (deps : List String) (m : VertexMap) (c : Nat) (st' : VertexMap × Nat)
    (h : processDeps s b col deps (m, c) = some st') (u : String) :
    outToFilter s st'.1 u =
      (outToFilter s m u).map
        (· ++ (mkDepEdges s b col deps c).filter fun e => edgeFromIs e u) := by
  unfold outToFilter
  rw [processDeps_outgoingOf s b col deps m c st' h u]
  cases outgoingOf m u with
  | none => simp
  | some l =>
    simp [List.filter_append]
    apply List.filter_congr
    intro e he
    rw [mkDepEdges_to_self s b col deps c e he]
    simp

theorem processDeps_outToFilter_ne (r s : String) (b : List (String × List String))
    (col : String) (deps : List String) (m : VertexMap) (c : Nat) (st' : VertexMap × Nat)
    (h : processDeps s b col deps (m, c) = some st') (hr : s ≠ r) (u : String) :
    outToFilter r st'.1 u = outToFilter r m u := by
  unfold outToFilter
  rw [processDeps_outgoingOf s b col deps m c st' h u]
  cases outgoingOf m u with
  | none => simp
  | some l =>
    simp [List.filter_append, mkDepEdges_filter_to_ne r s b col deps c _ hr]

theorem processDeps_outParFilter (s : String) (b : List (String × List String))
    (col : String) (deps : List String) (m : VertexMap) (c : Nat) (st' : VertexMap × Nat)
    (h : processDeps s b col deps (m, c) = some st') (u : String) :
    outParFilter st'.1 u = outParFilter m u := by
  unfold outParFilter
  rw [processDeps_outgoingOf s b col deps m c st' h u]
  cases outgoingOf m u with
  | none => simp
  | some l =>
    simp [List.filter_append]
    intro a ha hpar
    simp [mkDepEdges_not_par s b col deps c a ha] at hpar

/-! ### Pass 2: stability of keys and resources -/

theorem pass2_stable (opts : graphCommandOptions) :
    ∀ (ks : List String) (m : VertexMap) (c : Nat) (st' : VertexMap × Nat),
      pass2 opts ks (m, c) = some st' →
      keysOf st'.1 = keysOf m ∧ ∀ u, resourceOf st'.1 u = resourceOf m u := by
  intro ks
  induction ks with
  | nil =>
    intro m c st' h
    simp only [pass2, Option.some.injEq] at h
    rw [← h]
    exact ⟨rfl, fun u => rfl⟩
  | cons k rest ih =>
    intro m c st' h
    cases hv : lookupVertex m k with
    | none => simp [pass2, hv] at h
    | some v =>
      simp only [pass2, hv] at h
      cases hb : opts.ignoreDependencyEdges with
      | true =>
        simp only [hb, if_true] at h
        cases hp : opts.ignoreParentEdges with
        | true =>
          simp only [hp, if_true] at h
          exact ih _ _ _ h
        | false =>
          simp only [hp, Bool.false_eq_true, if_false] at h
          rcases hpp : processParent k v.resource.Parent opts.parentEdgeColor (m, c) with ⟨m2, c2⟩
          rw [hpp] at h
          obtain ⟨h1, h2⟩ := ih _ _ _ h
          have hk := processParent_keysOf k v.resource.Parent opts.parentEdgeColor (m, c)
          have hr := processParent_resourceOf k v.resource.Parent opts.parentEdgeColor (m, c)
          rw [hpp] at hk hr
          exact ⟨h1.trans hk, fun u => (h2 u).trans (hr u)⟩
      | false =>
        simp only [hb, Bool.false_eq_true, if_false] at h
        cases hd : processDeps k (mkDepBlame v.resource.PropertyDependencies)
            opts.dependencyEdgeColor v.resource.Dependencies (m, c) with
        | none => simp [hd] at h
        | some st1 =>
          obtain ⟨m1, c1⟩ := st1
          simp only [hd] at h
          have hk1 := processDeps_keysOf _ _ _ _ _ _ _ hd
          have hr1 := processDeps_resourceOf _ _ _ _ _ _ _ hd
          cases hp : opts.ignoreParentEdges with
          | true =>
            simp only [hp, if_true] at h
            obtain ⟨h1, h2⟩ := ih _ _ _ h
            exact ⟨h1.trans hk1, fun u => (h2 u).trans (hr1 u)⟩
          | false =>
            simp only [hp, Bool.false_eq_true, if_false] at h
            rcases hpp : processParent k v.resource.Parent opts.parentEdgeColor (m1, c1) with ⟨m2, c2⟩
            rw [hpp] at h
            obtain ⟨h1, h2⟩ := ih _ _ _ h
            have hk := processParent_keysOf k v.resource.Parent opts.parentEdgeColor (m1, c1)
            have hr := processParent_resourceOf k v.resource.Parent opts.parentEdgeColor (m1, c1)
            rw [hpp] at hk hr
            exact ⟨(h1.trans hk).trans hk1, fun u => ((h2 u).trans (hr u)).trans (hr1 u)⟩

/-! ### Pass 2: iterations of other vertices leave a vertex's view unchanged -/

theorem pass2_notmem (opts : graphCommandOptions) (r : String) :
    ∀ (ks : List String) (m : VertexMap) (c : Nat) (st' : VertexMap × Nat),
      r ∉ ks → pass2 opts ks (m, c) = some st' →
      incomingOf st'.1 r = incomingOf m r ∧
      (∀ u, outToFilter r st'.1 u = outToFilter r m u) ∧
      outParFilter st'.1 r = outParFilter m r := by
  intro ks
  induction ks with
  | nil =>
    intro m c st' _ h
    simp only [pass2, Option.some.injEq] at h
    rw [← h]
    exact ⟨rfl, fun u => rfl, rfl⟩
  | cons k rest ih =>
    intro m c st' hr h
    have hrk : r ≠ k := fun hh => hr (hh ▸ List.mem_cons_self k rest)
    have hrr : r ∉ rest := fun hh => hr (List.mem_cons_of_mem k hh)
    cases hv : lookupVertex m k with
    | none => simp [pass2, hv] at h
    | some v =>
      simp only [pass2, hv] at h
      cases hb : opts.ignoreDependencyEdges with
      | true =>
        simp only [hb, if_true] at h
        cases hp : opts.ignoreParentEdges with
        | true =>
          simp only [hp, if_true] at h
          exact ih _ _ _ hrr h
        | false =>
          simp only [hp, Bool.false_eq_true, if_false] at h
          rcases hpp : processParent k v.resource.Parent opts.parentEdgeColor (m, c) with ⟨m2, c2⟩
          rw [hpp] at h
          obtain ⟨h1, h2, h3⟩ := ih _ _ _ hrr h
          have hk1 := processParent_incomingOf k v.resource.Parent opts.parentEdgeColor (m, c) r
          have hk2 := fun u => processParent_outToFilter r k v.resource.Parent opts.parentEdgeColor (m, c) u
          have hk3 := processParent_outParFilter_ne k v.resource.Parent opts.parentEdgeColor (m, c) r hrk
          rw [hpp] at hk1 hk2 hk3
          exact ⟨h1.trans hk1, fun u => (h2 u).trans (hk2 u), h3.trans hk3⟩
      | false =>
        simp only [hb, Bool.false_eq_true, if_false] at h
        cases hd : processDeps k (mkDepBlame v.resource.PropertyDependencies)
            opts.dependencyEdgeColor v.resource.Dependencies (m, c) with
        | none => simp [hd] at h
        | some st1 =>
          obtain ⟨m1, c1⟩ := st1
          simp only [hd] at h
          have hd1 := processDeps_incomingOf_ne _ _ _ _ _ _ _ hd r hrk
          have hd2 := fun u => processDeps_outToFilter_ne r _ _ _ _ _ _ _ hd (Ne.symm hrk) u
          have hd3 := fun u => processDeps_outParFilter _ _ _ _ _ _ _ hd u
          cases hp : opts.ignoreParentEdges with
          | true =>
            simp only [hp, if_true] at h
            obtain ⟨h1, h2, h3⟩ := ih _ _ _ hrr h
            exact ⟨h1.trans hd1, fun u => (h2 u).trans (hd2 u), h3.trans (hd3 r)⟩
          | false =>
            simp only [hp, Bool.false_eq_true, if_false] at h
            rcases hpp : processParent k v.resource.Parent opts.parentEdgeColor (m1, c1) with ⟨m2, c2⟩
            rw [hpp] at h
            obtain ⟨h1, h2, h3⟩ := ih _ _ _ hrr h
            have hk1 := processParent_incomingOf k v.resource.Parent opts.parentEdgeColor (m1, c1) r
            have hk2 := fun u => processParent_outToFilter r k v.resource.Parent opts.parentEdgeColor (m1, c1) u
            have hk3 := processParent_outParFilter_ne k v.resource.Parent opts.parentEdgeColor (m1, c1) r hrk
            rw [hpp] at hk1 hk2 hk3
            exact ⟨(h1.trans hk1).trans hd1,
                   fun u => ((h2 u).trans (hk2 u)).trans (hd2 u),
                   (h3.trans hk3).trans (hd3 r)⟩

theorem isSome_eq_of_keysOf_eq (m1 m2 : VertexMap) (h : keysOf m1 = keysOf m2) (u : String) :
    (lookupVertex m1 u).isSome = (lookupVertex m2 u).isSome := by
  have h1 := mem_keysOf_iff_isSome m1 u
  have h2 := mem_keysOf_iff_isSome m2 u
  rw [h] at h1
  by_cases hm : u ∈ keysOf m2
  · rw [h1.mp hm, h2.mp hm]
  · have n1 : ¬(lookupVertex m1 u).isSome = true := fun hh => hm (h1.mpr hh)
    have n2 : ¬(lookupVertex m2 u).isSome = true := fun hh => hm (h2.mpr hh)
    rw [Bool.not_eq_true] at n1 n2
    rw [n1, n2]

theorem pass2_step_ne (opts : graphCommandOptions) (r k : String) (rest : List String)
    (m : VertexMap) (c : Nat) (st' : VertexMap × Nat) (hrk : k ≠ r)
    (h : pass2 opts (k :: rest) (m, c) = some st') :
    ∃ m2 c2, pass2 opts rest (m2, c2) = some st' ∧
      incomingOf m2 r = incomingOf m r ∧
      (∀ u, outToFilter r m2 u = outToFilter r m u) ∧
      outParFilter m2 r = outParFilter m r ∧
      (∀ u, resourceOf m2 u = resourceOf m u) ∧
      keysOf m2 = keysOf m := by
  cases hv : lookupVertex m k with
  | none => simp [pass2, hv] at h
  | some v =>
    simp only [pass2, hv] at h
    cases hb : opts.ignoreDependencyEdges with
    | true =>
      simp only [hb, if_true] at h
      cases hp : opts.ignoreParentEdges with
      | true =>
        simp only [hp, if_true] at h
        exact ⟨m, c, h, rfl, fun u => rfl, rfl, fun u => rfl, rfl⟩
      | false =>
        simp only [hp, Bool.false_eq_true, if_false] at h
        rcases hpp : processParent k v.resource.Parent opts.parentEdgeColor (m, c) with ⟨m2, c2⟩
        rw [hpp] at h
        have e1 := processParent_incomingOf k v.resource.Parent opts.parentEdgeColor (m, c) r
        have e2 := fun u => processParent_outToFilter r k v.resource.Parent opts.parentEdgeColor (m, c) u
        have e3 := processParent_outParFilter_ne k v.resource.Parent opts.parentEdgeColor (m, c) r (Ne.symm hrk)
        have e4 := fun u => processParent_resourceOf k v.resource.Parent opts.parentEdgeColor (m, c) u
        have e5 := processParent_keysOf k v.resource.Parent opts.parentEdgeColor (m, c)
        rw [hpp] at e1 e2 e3 e4 e5
        exact ⟨m2, c2, h, e1, e2, e3, e4, e5⟩
    | false =>
      simp only [hb, Bool.false_eq_true, if_false] at h
      cases hd : processDeps k (mkDepBlame v.resource.PropertyDependencies)
          opts.dependencyEdgeColor v.resource.Dependencies (m, c) with
      | none => simp [hd] at h
      | some st1 =>
        obtain ⟨m1, c1⟩ := st1
        simp only [hd] at h
        have f1 : incomingOf m1 r = incomingOf m r :=
          processDeps_incomingOf_ne _ _ _ _ _ _ _ hd r (Ne.symm hrk)
        have f2 : ∀ u, outToFilter r m1 u = outToFilter r m u :=
          fun u => processDeps_outToFilter_ne r _ _ _ _ _ _ _ hd hrk u
        have f3 : outParFilter m1 r = outParFilter m r :=
          processDeps_outParFilter _ _ _ _ _ _ _ hd r
        have f4 : ∀ u, resourceOf m1 u = resourceOf m u :=
          processDeps_resourceOf _ _ _ _ _ _ _ hd
        have f5 : keysOf m1 = keysOf m :=
          processDeps_keysOf _ _ _ _ _ _ _ hd
        cases hp : opts.ignoreParentEdges with
        | true =>
          simp only [hp, if_true] at h
          exact ⟨m1, c1, h, f1, f2, f3, f4, f5⟩
        | false =>
          simp only [hp, Bool.false_eq_true, if_false] at h
          rcases hpp : processParent k v.resource.Parent opts.parentEdgeColor (m1, c1) with ⟨m2, c2⟩
          rw [hpp] at h
          have e1 := processParent_incomingOf k v.resource.Parent opts.parentEdgeColor (m1, c1) r
          have e2 := fun u => processParent_outToFilter r k v.resource.Parent opts.parentEdgeColor (m1, c1) u
          have e3 := processParent_outParFilter_ne k v.resource.Parent opts.parentEdgeColor (m1, c1) r (Ne.symm hrk)
          have e4 := fun u => processParent_resourceOf k v.resource.Parent opts.parentEdgeColor (m1, c1) u
          have e5 := processParent_keysOf k v.resource.Parent opts.parentEdgeColor (m1, c1)
          rw [hpp] at e1 e2 e3 e4 e5
          exact ⟨m2, c2, h, e1.trans f1, fun u => (e2 u).trans (f2 u), e3.trans f3,
                 fun u => (e4 u).trans (f4 u), e5.trans f5⟩

theorem pass2_step_self_dep (opts : graphCommandOptions) (r : String) (rest : List String)
    (m : VertexMap) (c : Nat) (st' : VertexMap × Nat) (v : dependencyVertex)
    (hid : opts.ignoreDependencyEdges = false)
    (hv : lookupVertex m r = some v)
    (h : pass2 opts (r :: rest) (m, c) = some st') :
    ∃ m2 c2, pass2 opts rest (m2, c2) = some st' ∧
      incomingOf m2 r =
        some (v.incomingEdges ++
          mkDepEdges r (mkDepBlame v.resource.PropertyDependencies)
            opts.dependencyEdgeColor v.resource.Dependencies c) ∧
      ∀ u, outToFilter r m2 u =
        (outToFilter r m u).map
          (· ++ (mkDepEdges r (mkDepBlame v.resource.PropertyDependencies)
              opts.dependencyEdgeColor v.resource.Dependencies c).filter
            fun e => edgeFromIs e u) := by
  simp only [pass2, hv] at h
  simp only [hid, Bool.false_eq_true, if_false] at h
  cases hd : processDeps r (mkDepBlame v.resource.PropertyDependencies)
      opts.dependencyEdgeColor v.resource.Dependencies (m, c) with
  | none => simp [hd] at h
  | some st1 =>
    obtain ⟨m1, c1⟩ := st1
    simp only [hd] at h
    have f1 : incomingOf m1 r =
        (incomingOf m r).map
          (· ++ mkDepEdges r (mkDepBlame v.resource.PropertyDependencies)
            opts.dependencyEdgeColor v.resource.Dependencies c) :=
      processDeps_incomingOf_self _ _ _ _ _ _ _ hd
    have g1 : incomingOf m1 r =
        some (v.incomingEdges ++
          mkDepEdges r (mkDepBlame v.resource.PropertyDependencies)
            opts.dependencyEdgeColor v.resource.Dependencies c) := by
      rw [f1]
      simp [incomingOf, hv]
    have g2 : ∀ u, outToFilter r m1 u =
        (outToFilter r m u).map
          (· ++ (mkDepEdges r (mkDepBlame v.resource.PropertyDependencies)
              opts.dependencyEdgeColor v.resource.Dependencies c).filter
            fun e => edgeFromIs e u) :=
      fun u => processDeps_outToFilter_self _ _ _ _ _ _ _ hd u
    cases hp : opts.ignoreParentEdges with
    | true =>
      simp only [hp, if_true] at h
      exact ⟨m1, c1, h, g1, g2⟩
    | false =>
      simp only [hp, Bool.false_eq_true, if_false] at h
      rcases hpp : processParent r v.resource.Parent opts.parentEdgeColor (m1, c1) with ⟨m2, c2⟩
      rw [hpp] at h
      have e1 := processParent_incomingOf r v.resource.Parent opts.parentEdgeColor (m1, c1) r
      have e2 := fun u => processParent_outToFilter r r v.resource.Parent opts.parentEdgeColor (m1, c1) u
      rw [hpp] at e1 e2
      exact ⟨m2, c2, h, e1.trans g1, fun u => (e2 u).trans (g2 u)⟩

theorem pass2_step_self_par (opts : graphCommandOptions) (r : String) (rest : List String)
    (m : VertexMap) (c : Nat) (st' : VertexMap × Nat) (v : dependencyVertex)
    (hip : opts.ignoreParentEdges = false)
    (hpne : v.resource.Parent ≠ "")
    (hv : lookupVertex m r = some v)
    (h : pass2 opts (r :: rest) (m, c) = some st') :
    ∃ m2 c2 ce, pass2 opts rest (m2, c2) = some st' ∧
      outParFilter m2 r =
        (outParFilter m r).map
          (· ++ [GraphEdge.par
            { eid := ce,
              to_ := if (lookupVertex m v.resource.Parent).isSome
                     then some v.resource.Parent else none,
              from_ := some r, color := opts.parentEdgeColor }]) := by
  simp only [pass2, hv] at h
  cases hb : opts.ignoreDependencyEdges with
  | true =>
    simp only [hb, if_true] at h
    simp only [hip, Bool.false_eq_true, if_false] at h
    rcases hpp : processParent r v.resource.Parent opts.parentEdgeColor (m, c) with ⟨m2, c2⟩
    rw [hpp] at h
    have e1 := processParent_outParFilter_self r v.resource.Parent opts.parentEdgeColor (m, c) hpne
    rw [hpp] at e1
    exact ⟨m2, c2, c, h, e1⟩
  | false =>
    simp only [hb, Bool.false_eq_true, if_false] at h
    cases hd : processDeps r (mkDepBlame v.resource.PropertyDependencies)
        opts.dependencyEdgeColor v.resource.Dependencies (m, c) with
    | none => simp [hd] at h
    | some st1 =>
      obtain ⟨m1, c1⟩ := st1
      simp only [hd] at h
      simp only [hip, Bool.false_eq_true, if_false] at h
      rcases hpp : processParent r v.resource.Parent opts.parentEdgeColor (m1, c1) with ⟨m2, c2⟩
      rw [hpp] at h
      have e1 := processParent_outParFilter_self r v.resource.Parent opts.parentEdgeColor (m1, c1) hpne
      rw [hpp] at e1
      have hkeys : keysOf m1 = keysOf m := processDeps_keysOf _ _ _ _ _ _ _ hd
      have hiso : (lookupVertex m1 v.resource.Parent).isSome
          = (lookupVertex m v.resource.Parent).isSome :=
        isSome_eq_of_keysOf_eq m1 m hkeys v.resource.Parent
      rw [hiso] at e1
      have f3 : outParFilter m1 r = outParFilter m r :=
        processDeps_outParFilter _ _ _ _ _ _ _ hd r
      rw [f3] at e1
      exact ⟨m2, c2, c1, h, e1⟩

/-! ### Pass 2: the edges of a member vertex -/

theorem pass2_R_char (opts : graphCommandOptions) (r : String)
    (hid : opts.ignoreDependencyEdges = false) :
    ∀ (ks : List String) (m : VertexMap) (c : Nat) (st' : VertexMap × Nat)
      (v : dependencyVertex),
      ks.Nodup → r ∈ ks → pass2 opts ks (m, c) = some st' → lookupVertex m r = some v →
      ∃ c1,
        incomingOf st'.1 r =
          some (v.incomingEdges ++
            mkDepEdges r (mkDepBlame v.resource.PropertyDependencies)
              opts.dependencyEdgeColor v.resource.Dependencies c1) ∧
        ∀ u, outToFilter r st'.1 u =
          (outToFilter r m u).map
            (· ++ (mkDepEdges r (mkDepBlame v.resource.PropertyDependencies)
                opts.dependencyEdgeColor v.resource.Dependencies c1).filter
              fun e => edgeFromIs e u) := by
  intro ks
  induction ks with
  | nil =>
    intro m c st' v _ hmem _ _
    exact absurd hmem (List.not_mem_nil r)
  | cons k rest ih =>
    intro m c st' v hnd hmem h hv
    by_cases hkr : k = r
    · subst hkr
      obtain ⟨m2, c2, cont, hin, hout⟩ :=
        pass2_step_self_dep opts k rest m c st' v hid hv h
      have hnr : k ∉ rest := (List.nodup_cons.mp hnd).1
      obtain ⟨p1, p2, _⟩ := pass2_notmem opts k rest m2 c2 st' hnr cont
      exact ⟨c, p1.trans hin, fun u => (p2 u).trans (hout u)⟩
    · have hmem2 : r ∈ rest := by
        rcases List.mem_cons.mp hmem with hh | hh
        · exact absurd hh.symm hkr
        · exact hh
      obtain ⟨m2, c2, cont, e1, e2, _, e4, _⟩ :=
        pass2_step_ne opts r k rest m c st' hkr h
      have hi : incomingOf m2 r = some v.incomingEdges := by
        rw [e1]
        simp [incomingOf, hv]
      have hres : resourceOf m2 r = some v.resource := by
        rw [e4 r]
        simp [resourceOf, hv]
      cases hl2 : lookupVertex m2 r with
      | none => simp [incomingOf, hl2] at hi
      | some v2 =>
        have hie : v2.incomingEdges = v.incomingEdges := by
          simp [incomingOf, hl2] at hi
          exact hi
        have hre : v2.resource = v.resource := by
          simp [resourceOf, hl2] at hres
          exact hres
        obtain ⟨c1, hin, hout⟩ :=
          ih m2 c2 st' v2 (List.nodup_cons.mp hnd).2 hmem2 cont hl2
        refine ⟨c1, ?_, ?_⟩
        · rw [hin, hie, hre]
        · intro u
          rw [hout u, hre, e2 u]

theorem pass2_parent_char (opts : graphCommandOptions) (r : String)
    (hip : opts.ignoreParentEdges = false) :
    ∀ (ks : List String) (m : VertexMap) (c : Nat) (st' : VertexMap × Nat)
      (v : dependencyVertex),
      ks.Nodup → r ∈ ks → pass2 opts ks (m, c) = some st' → lookupVertex m r = some v →
      v.resource.Parent ≠ "" →
      ∃ ce, outParFilter st'.1 r =
        (outParFilter m r).map
          (· ++ [GraphEdge.par
            { eid := ce,
              to_ := if (lookupVertex m v.resource.Parent).isSome
                     then some v.resource.Parent else none,
              from_ := some r, color := opts.parentEdgeColor }]) := by
  intro ks
  induction ks with
  | nil =>
    intro m c st' v _ hmem _ _ _
    exact absurd hmem (List.not_mem_nil r)
  | cons k rest ih =>
    intro m c st' v hnd hmem h hv hpne
    by_cases hkr : k = r
    · subst hkr
      obtain ⟨m2, c2, ce, cont, hpar⟩ :=
        pass2_step_self_par opts k rest m c st' v hip hpne hv h
      have hnr : k ∉ rest := (List.nodup_cons.mp hnd).1
      obtain ⟨_, _, p3⟩ := pass2_notmem opts k rest m2 c2 st' hnr cont
      exact ⟨ce, p3.trans hpar⟩
    · have hmem2 : r ∈ rest := by
        rcases List.mem_cons.mp hmem with hh | hh
        · exact absurd hh.symm hkr
        · exact hh
      obtain ⟨m2, c2, cont, _, _, e3, e4, e5⟩ :=
        pass2_step_ne opts r k rest m c st' hkr h
      have hres : resourceOf m2 r = some v.resource := by
        rw [e4 r]
        simp [resourceOf, hv]
      cases hl2 : lookupVertex m2 r with
      | none => simp [resourceOf, hl2] at hres
      | some v2 =>
        have hre : v2.resource = v.resource := by
          simp [resourceOf, hl2] at hres
          exact hres
        obtain ⟨ce, hpar⟩ :=
          ih m2 c2 st' v2 (List.nodup_cons.mp hnd).2 hmem2 cont hl2 (by rw [hre]; exact hpne)
        refine ⟨ce, ?_⟩
        rw [hpar, hre, e3]
        rw [isSome_eq_of_keysOf_eq m2 m e5 v.resource.Parent]

/-! ### Pass 2: success forces every dependency URN to resolve -/

theorem processDeps_some_resolve (s : String) (b : List (String × List String)) (col : String) :
    ∀ (deps : List String) (m : VertexMap) (c : Nat) (st' : VertexMap × Nat),
      processDeps s b col deps (m, c) = some st' →
      ∀ d ∈ deps, (lookupVertex m d).isSome := by
  intro deps
  induction deps with
  | nil =>
    intro m c st' _ d hd
    exact absurd hd (List.not_mem_nil d)
  | cons d rest ih =>
    intro m c st' h d0 hd0
    cases hl : lookupVertex m d with
    | none => simp [processDeps, hl] at h
    | some w =>
      simp only [processDeps, hl] at h
      rcases List.mem_cons.mp hd0 with rfl | hmem
      · simp [hl]
      · have h2 := ih _ _ _ h d0 hmem
        rwa [isSome_lookup_modify, isSome_lookup_modify] at h2

theorem pass2_some_resolve (opts : graphCommandOptions)
    (hid : opts.ignoreDependencyEdges = false) :
    ∀ (ks : List String) (m : VertexMap) (c : Nat) (st' : VertexMap × Nat),
      pass2 opts ks (m, c) = some st' →
      ∀ k ∈ ks, ∀ v, lookupVertex m k = some v →
        ∀ d ∈ v.resource.Dependencies, (lookupVertex m d).isSome := by
  intro ks
  induction ks with
  | nil =>
    intro m c st' _ k hk
    exact absurd hk (List.not_mem_nil k)
  | cons k rest ih =>
    intro m c st' h k0 hk0 v0 hv0 d hd
    cases hv : lookupVertex m k with
    | none => simp [pass2, hv] at h
    | some v =>
      simp only [pass2, hv] at h
      simp only [hid, Bool.false_eq_true, if_false] at h
      cases hd1 : processDeps k (mkDepBlame v.resource.PropertyDependencies)
          opts.dependencyEdgeColor v.resource.Dependencies (m, c) with
      | none => simp [hd1] at h
      | some st1 =>
        obtain ⟨m1, c1⟩ := st1
        simp only [hd1] at h
        by_cases hk0k : k0 = k
        · subst hk0k
          rw [hv] at hv0
          injection hv0 with hv0
          subst hv0
          exact processDeps_some_resolve _ _ _ _ _ _ _ hd1 d hd
        · have hmem : k0 ∈ rest := by
            rcases List.mem_cons.mp hk0 with hh | hh
            · exact absurd hh hk0k
            · exact hh
          have hcons : pass2 opts (k :: rest) (m, c) = some st' := by
            simp only [pass2, hv, hid, Bool.false_eq_true, if_false, hd1]
            exact h
          obtain ⟨m2, c2, cont, _, _, _, e4, e5⟩ :=
            pass2_step_ne opts k0 k rest m c st' (fun hh => hk0k hh.symm) hcons
          have hres : resourceOf m2 k0 = some v0.resource := by
            rw [e4 k0]
            simp [resourceOf, hv0]
          cases hl2 : lookupVertex m2 k0 with
          | none => simp [resourceOf, hl2] at hres
          | some v2 =>
            have hre : v2.resource = v0.resource := by
              simp [resourceOf, hl2] at hres
              exact hres
            have h3 := ih _ _ _ cont k0 hmem v2 hl2 d (by rw [hre]; exact hd)
            rwa [isSome_eq_of_keysOf_eq m2 m e5 d] at h3

/-! ### Pass 2: a snapshot with no references leaves the map unchanged -/

theorem pass2_id (opts : graphCommandOptions) :
    ∀ (ks : List String) (m : VertexMap) (c : Nat),
      (∀ k ∈ ks, ∃ v, lookupVertex m k = some v ∧
        v.resource.Dependencies = [] ∧ v.resource.Parent = "") →
      pass2 opts ks (m, c) = some (m, c) := by
  intro ks
  induction ks with
  | nil => intro m c _; simp [pass2]
  | cons k rest ih =>
    intro m c hall
    obtain ⟨v, hv, hdeps, hpar⟩ := hall k (List.mem_cons_self k rest)
    have hrest := fun k2 hk2 => hall k2 (List.mem_cons_of_mem k hk2)
    simp only [pass2, hv, hdeps, hpar, processDeps, processParent_empty, ite_self]
    exact ih m c hrest

/-! ### Entry-wise invariants of the builder -/

theorem modifyVertex_forall (P : String → dependencyVertex → Prop) (k : String)
    (f : dependencyVertex → dependencyVertex) (hf : ∀ w, P k w → P k (f w)) :
    ∀ m : VertexMap, (∀ kv ∈ m, P kv.1 kv.2) →
      ∀ kv ∈ modifyVertex m k f, P kv.1 kv.2 := by
  intro m
  induction m with
  | nil =>
    intro _ kv hkv
    simp [modifyVertex] at hkv
  | cons kv0 rest ih =>
    obtain ⟨k1, v1⟩ := kv0
    intro hm kv hkv
    by_cases h1 : k1 = k
    · subst h1
      simp only [modifyVertex, if_pos rfl] at hkv
      rcases List.mem_cons.mp hkv with rfl | hmem
      · exact hf v1 (hm (k1, v1) (List.mem_cons_self _ _))
      · exact hm kv (List.mem_cons_of_mem _ hmem)
    · simp only [modifyVertex, if_neg h1] at hkv
      rcases List.mem_cons.mp hkv with rfl | hmem
      · exact hm (k1, v1) (List.mem_cons_self _ _)
      · exact ih (fun kv2 h2 => hm kv2 (List.mem_cons_of_mem _ h2)) kv hmem

theorem insertVertex_forall (P : String → dependencyVertex → Prop) (k : String)
    (v : dependencyVertex) (hv : P k v) :
    ∀ m : VertexMap, (∀ kv ∈ m, P kv.1 kv.2) →
      ∀ kv ∈ insertVertex m k v, P kv.1 kv.2 := by
  intro m
  induction m with
  | nil =>
    intro _ kv hkv
    simp only [insertVertex, List.mem_singleton] at hkv
    subst hkv
    exact hv
  | cons kv0 rest ih =>
    obtain ⟨k1, v1⟩ := kv0
    intro hm kv hkv
    by_cases h1 : k1 = k
    · subst h1
      simp only [insertVertex, if_pos rfl] at hkv
      rcases List.mem_cons.mp hkv with rfl | hmem
      · exact hv
      · exact hm kv (List.mem_cons_of_mem _ hmem)
    · simp only [insertVertex, if_neg h1] at hkv
      rcases List.mem_cons.mp hkv with rfl | hmem
      · exact hm (k1, v1) (List.mem_cons_self _ _)
      · exact ih (fun kv2 h2 => hm kv2 (List.mem_cons_of_mem _ h2)) kv hmem

theorem pass1_forall (short : Bool) (P : String → dependencyVertex → Prop) :
    ∀ (rs : List ResourceState) (m : VertexMap),
      (∀ kv ∈ m, P kv.1 kv.2) → (∀ r ∈ rs, P r.URN (initVertex short r)) →
      ∀ kv ∈ pass1 short rs m, P kv.1 kv.2 := by
  intro rs
  induction rs with
  | nil =>
    intro m hm _ kv hkv
    exact hm kv hkv
  | cons r rest ih =>
    intro m hm hr kv hkv
    exact ih _
      (insertVertex_forall P r.URN (initVertex short r)
        (hr r (List.mem_cons_self _ _)) m hm)
      (fun r2 h2 => hr r2 (List.mem_cons_of_mem _ h2)) kv hkv

theorem processDeps_inv (P : String → dependencyVertex → Prop) (s : String)
    (b : List (String × List String)) (col : String)
    (hIn : ∀ w cc d lb, P s w →
      P s (appendIn [GraphEdge.dep
        { eid := cc, to_ := some s, from_ := some d, labels := lb, color := col }] w))
    (hOut : ∀ d w cc lb, P d w →
      P d (appendOut [GraphEdge.dep
        { eid := cc, to_ := some s, from_ := some d, labels := lb, color := col }] w)) :
    ∀ (deps : List String) (m : VertexMap) (c : Nat) (st' : VertexMap × Nat),
      processDeps s b col deps (m, c) = some st' →
      (∀ kv ∈ m, P kv.1 kv.2) → ∀ kv ∈ st'.1, P kv.1 kv.2 := by
  intro deps
  induction deps with
  | nil =>
    intro m c st' h hm
    simp only [processDeps, Option.some.injEq] at h
    rw [← h]
    exact hm
  | cons d rest ih =>
    intro m c st' h hm
    cases hl : lookupVertex m d with
    | none => simp [processDeps, hl] at h
    | some w =>
      simp only [processDeps, hl] at h
      refine ih _ _ _ h ?_
      refine modifyVertex_forall P d _ (fun w2 hw2 => hOut d w2 c _ hw2) _ ?_
      exact modifyVertex_forall P s _ (fun w2 hw2 => hIn w2 c d _ hw2) m hm

theorem processParent_inv (P : String → dependencyVertex → Prop) (s p col : String)
    (hPar : ∀ w cc topt, P s w →
      P s (appendOut [GraphEdge.par
        { eid := cc, to_ := topt, from_ := some s, color := col }] w))
    (st : VertexMap × Nat) (hm : ∀ kv ∈ st.1, P kv.1 kv.2) :
    ∀ kv ∈ (processParent s p col st).1, P kv.1 kv.2 := by
  by_cases hp : p = ""
  · rw [hp, processParent_empty]
    exact hm
  · rw [processParent_nonempty s p col st hp]
    exact modifyVertex_forall P s _ (fun w2 hw2 => hPar w2 st.2 _ hw2) st.1 hm

theorem pass2_inv (opts : graphCommandOptions) (P : String → dependencyVertex → Prop)
    (hIn : opts.ignoreDependencyEdges = false → ∀ s w cc d lb, P s w →
      P s (appendIn [GraphEdge.dep
        { eid := cc, to_ := some s, from_ := some d, labels := lb,
          color := opts.dependencyEdgeColor }] w))
    (hOut : opts.ignoreDependencyEdges = false → ∀ s d w cc lb, P d w →
      P d (appendOut [GraphEdge.dep
        { eid := cc, to_ := some s, from_ := some d, labels := lb,
          color := opts.dependencyEdgeColor }] w))
    (hPar : opts.ignoreParentEdges = false → ∀ s w cc topt, P s w →
      P s (appendOut [GraphEdge.par
        { eid := cc, to_ := topt, from_ := some s, color := opts.parentEdgeColor }] w)) :
    ∀ (ks : List String) (m : VertexMap) (c : Nat) (st' : VertexMap × Nat),
      pass2 opts ks (m, c) = some st' →
      (∀ kv ∈ m, P kv.1 kv.2) → ∀ kv ∈ st'.1, P kv.1 kv.2 := by
  intro ks
  induction ks with
  | nil =>
    intro m c st' h hm
    simp only [pass2, Option.some.injEq] at h
    rw [← h]
    exact hm
  | cons k rest ih =>
    intro m c st' h hm
    cases hv : lookupVertex m k with
    | none => simp [pass2, hv] at h
    | some v =>
      simp only [pass2, hv] at h
      cases hb : opts.ignoreDependencyEdges with
      | true =>
        simp only [hb, if_true] at h
        cases hp : opts.ignoreParentEdges with
        | true =>
          simp only [hp, if_true] at h
          exact ih _ _ _ h hm
        | false =>
          simp only [hp, Bool.false_eq_true, if_false] at h
          rcases hpp : processParent k v.resource.Parent opts.parentEdgeColor (m, c) with ⟨m2, c2⟩
          rw [hpp] at h
          have hinv := processParent_inv P k v.resource.Parent opts.parentEdgeColor
            (fun w cc topt hw => hPar hp k w cc topt hw) (m, c) hm
          rw [hpp] at hinv
          exact ih _ _ _ h hinv
      | false =>
        simp only [hb, Bool.false_eq_true, if_false] at h
        cases hd : processDeps k (mkDepBlame v.resource.PropertyDependencies)
            opts.dependencyEdgeColor v.resource.Dependencies (m, c) with
        | none => simp [hd] at h
        | some st1 =>
          obtain ⟨m1, c1⟩ := st1
          simp only [hd] at h
          have hinv1 := processDeps_inv P k (mkDepBlame v.resource.PropertyDependencies)
            opts.dependencyEdgeColor
            (fun w cc d lb hw => hIn hb k w cc d lb hw)
            (fun d w cc lb hw => hOut hb k d w cc lb hw)
            v.resource.Dependencies m c (m1, c1) hd hm
          cases hp : opts.ignoreParentEdges with
          | true =>
            simp only [hp, if_true] at h
            exact ih _ _ _ h hinv1
          | false =>
            simp only [hp, Bool.false_eq_true, if_false] at h
            rcases hpp : processParent k v.resource.Parent opts.parentEdgeColor (m1, c1) with ⟨m2, c2⟩
            rw [hpp] at h
            have hinv2 := processParent_inv P k v.resource.Parent opts.parentEdgeColor
              (fun w cc topt hw => hPar hp k w cc topt hw) (m1, c1) hinv1
            rw [hpp] at hinv2
            exact ih _ _ _ h hinv2

/-! ### Pass 1: the vertex map allocated from the snapshot -/

theorem lastWithUrn_urn : ∀ (rs : List ResourceState) (u : String) (r : ResourceState),
    lastWithUrn rs u = some r → r.URN = u := by
  intro rs
  induction rs with
  | nil => intro u r h; simp [lastWithUrn] at h
  | cons r0 rest ih =>
    intro u r h
    simp only [lastWithUrn] at h
    cases hl : lastWithUrn rest u with
    | some x =>
      rw [hl] at h
      injection h with h
      exact h ▸ ih u x hl
    | none =>
      rw [hl] at h
      by_cases hu : r0.URN = u
      · rw [if_pos hu] at h
        injection h with h
        exact h ▸ hu
      · rw [if_neg hu] at h
        exact absurd h (by simp)

theorem lastWithUrn_isSome : ∀ (rs : List ResourceState) (u : String),
    (lastWithUrn rs u).isSome ↔ u ∈ rs.map (·.URN) := by
  intro rs
  induction rs with
  | nil => intro u; simp [lastWithUrn]
  | cons r0 rest ih =>
    intro u
    simp only [lastWithUrn, List.map_cons, List.mem_cons]
    cases hl : lastWithUrn rest u with
    | some x =>
      simp only [Option.isSome_some, true_iff]
      right
      exact (ih u).mp (by rw [hl]; rfl)
    | none =>
      by_cases hu : r0.URN = u
      · simp [hu]
      · simp only [if_neg hu, Option.isSome_none]
        constructor
        · intro hh; exact absurd hh (by simp)
        · rintro (hh | hh)
          · exact absurd hh.symm hu
          · exact absurd ((ih u).mpr hh) (by rw [hl]; simp)

theorem pass1_lookup (short : Bool) : ∀ (rs : List ResourceState) (m : VertexMap) (u : String),
    lookupVertex (pass1 short rs m) u =
      match lastWithUrn rs u with
      | some r => some (initVertex short r)
      | none => lookupVertex m u := by
  intro rs
  induction rs with
  | nil => intro m u; simp [pass1, lastWithUrn]
  | cons r rest ih =>
    intro m u
    simp only [pass1]
    rw [ih]
    simp only [lastWithUrn]
    cases hl : lastWithUrn rest u with
    | some x => rfl
    | none =>
      by_cases hu : r.URN = u
      · rw [if_pos hu]
        subst hu
        exact lookupVertex_insert_self m r.URN (initVertex short r)
      · rw [if_neg hu]
        exact lookupVertex_insert_ne m r.URN u (initVertex short r) (fun hh => hu hh.symm)

theorem pass1_keys_nodup (short : Bool) : ∀ (rs : List ResourceState) (m : VertexMap),
    (keysOf m).Nodup → (keysOf (pass1 short rs m)).Nodup := by
  intro rs
  induction rs with
  | nil => intro m hm; exact hm
  | cons r rest ih =>
    intro m hm
    exact ih _ (keysOf_insert_nodup m r.URN (initVertex short r) hm)

theorem pass1_keys_mem (short : Bool) (rs : List ResourceState) (m : VertexMap) (u : String) :
    u ∈ keysOf (pass1 short rs m) ↔ u ∈ keysOf m ∨ u ∈ rs.map (·.URN) := by
  rw [mem_keysOf_iff_isSome, pass1_lookup]
  cases hl : lastWithUrn rs u with
  | some x =>
    simp only [Option.isSome_some, true_iff]
    right
    exact (lastWithUrn_isSome rs u).mp (by rw [hl]; rfl)
  | none =>
    constructor
    · intro hs
      left
      exact (mem_keysOf_iff_isSome m u).mpr hs
    · rintro (hmem | hmem)
      · exact (mem_keysOf_iff_isSome m u).mp hmem
      · exact absurd ((lastWithUrn_isSome rs u).mpr hmem) (by rw [hl]; simp)

theorem keysOf_length (m : VertexMap) : (keysOf m).length = m.length :=
  List.length_map m Prod.fst

theorem insertVertex_length_not_mem (m : VertexMap) (k : String) (v : dependencyVertex)
    (h : k ∉ keysOf m) : (insertVertex m k v).length = m.length + 1 := by
  have h2 := congrArg List.length (keysOf_insert_not_mem m k v h)
  rw [keysOf_length, List.length_append, keysOf_length] at h2
  simpa using h2

theorem pass1_length (short : Bool) : ∀ (rs : List ResourceState) (m : VertexMap),
    (rs.map (·.URN)).Nodup → (∀ r ∈ rs, r.URN ∉ keysOf m) →
    (pass1 short rs m).length = m.length + rs.length := by
  intro rs
  induction rs with
  | nil => intro m _ _; rfl
  | cons r rest ih =>
    intro m hnd hdisj
    simp only [List.map_cons, List.nodup_cons] at hnd
    have hfresh : r.URN ∉ keysOf m := hdisj r (List.mem_cons_self _ _)
    have hdisj2 : ∀ r2 ∈ rest, r2.URN ∉ keysOf (insertVertex m r.URN (initVertex short r)) := by
      intro r2 h2
      rw [keysOf_insert_not_mem m r.URN _ hfresh]
      intro hmem
      rcases List.mem_append.mp hmem with hh | hh
      · exact hdisj r2 (List.mem_cons_of_mem _ h2) hh
      · rw [List.mem_singleton] at hh
        exact hnd.1 (hh ▸ List.mem_map_of_mem (·.URN) h2)
    have := ih (insertVertex m r.URN (initVertex short r)) hnd.2 hdisj2
    simp only [pass1]
    rw [this, insertVertex_length_not_mem m r.URN _ hfresh]
    simp only [List.length_cons]
    omega

theorem lastWithUrn_of_nodup : ∀ (rs : List ResourceState) (r : ResourceState),
    (rs.map (·.URN)).Nodup → r ∈ rs → lastWithUrn rs r.URN = some r := by
  intro rs
  induction rs with
  | nil => intro r _ hr; exact absurd hr (List.not_mem_nil r)
  | cons r0 rest ih =>
    intro r hnd hr
    simp only [List.map_cons, List.nodup_cons] at hnd
    simp only [lastWithUrn]
    rcases List.mem_cons.mp hr with rfl | hmem
    · have hnone : lastWithUrn rest r.URN = none := by
        cases hl : lastWithUrn rest r.URN with
        | none => rfl
        | some x =>
          exact absurd ((lastWithUrn_isSome rest r.URN).mp (by rw [hl]; rfl)) hnd.1
      rw [hnone, if_pos rfl]
    · rw [ih r hnd.2 hmem]

/-! ### The blame map inverts the property-dependency map -/

theorem blameLookup_blameInsert_self :
    ∀ (m : List (String × List String)) (dep k : String),
      blameLookup (blameInsert m dep k) dep = blameLookup m dep ++ [k] := by
  intro m
  induction m with
  | nil => intro dep k; simp [blameInsert, blameLookup]
  | cons dl rest ih =>
    obtain ⟨d, ls⟩ := dl
    intro dep k
    by_cases hd : d = dep
    · simp [blameInsert, blameLookup, hd]
    · simp [blameInsert, blameLookup, hd, ih]

theorem blameLookup_blameInsert_ne :
    ∀ (m : List (String × List String)) (dep k u : String), u ≠ dep →
      blameLookup (blameInsert m dep k) u = blameLookup m u := by
  intro m
  induction m with
  | nil => intro dep k u hu; simp [blameInsert, blameLookup, Ne.symm hu]
  | cons dl rest ih =>
    obtain ⟨d, ls⟩ := dl
    intro dep k u hu
    by_cases hd : d = dep
    · subst hd
      simp [blameInsert, blameLookup, Ne.symm hu]
    · simp [blameInsert, blameLookup, hd, ih dep k u hu]

theorem mem_blameLookup_blameInsert (m : List (String × List String)) (dep k u x : String)
    (h : x ∈ blameLookup m u) : x ∈ blameLookup (blameInsert m dep k) u := by
  by_cases hu : u = dep
  · subst hu
    rw [blameLookup_blameInsert_self]
    exact List.mem_append_left _ h
  · rw [blameLookup_blameInsert_ne m dep k u hu]
    exact h

theorem blame_inner_mono : ∀ (deps : List String) (m : List (String × List String))
    (k u x : String), x ∈ blameLookup m u →
    x ∈ blameLookup (deps.foldl (fun m2 dep => blameInsert m2 dep k) m) u := by
  intro deps
  induction deps with
  | nil => intro m k u x h; exact h
  | cons d rest ih =>
    intro m k u x h
    simp only [List.foldl_cons]
    exact ih _ k u x (mem_blameLookup_blameInsert m d k u x h)

theorem blame_inner_adds : ∀ (deps : List String) (m : List (String × List String))
    (k D : String), D ∈ deps →
    k ∈ blameLookup (deps.foldl (fun m2 dep => blameInsert m2 dep k) m) D := by
  intro deps
  induction deps with
  | nil => intro m k D h; exact absurd h (List.not_mem_nil D)
  | cons d rest ih =>
    intro m k D h
    simp only [List.foldl_cons]
    rcases List.mem_cons.mp h with rfl | hmem
    · apply blame_inner_mono
      rw [blameLookup_blameInsert_self]
      exact List.mem_append_right _ (List.mem_singleton.mpr rfl)
    · exact ih _ k D hmem

theorem blame_outer_mono : ∀ (pd : List (String × List String))
    (m : List (String × List String)) (u x : String), x ∈ blameLookup m u →
    x ∈ blameLookup
      (pd.foldl (fun m2 kd => kd.2.foldl (fun m3 dep => blameInsert m3 dep kd.1) m2) m) u := by
  intro pd
  induction pd with
  | nil => intro m u x h; exact h
  | cons kd rest ih =>
    intro m u x h
    simp only [List.foldl_cons]
    exact ih _ u x (blame_inner_mono kd.2 m kd.1 u x h)

theorem mkDepBlame_mem_general : ∀ (pd : List (String × List String))
    (m : List (String × List String)) (P : String) (pdeps : List String) (D : String),
    (P, pdeps) ∈ pd → D ∈ pdeps →
    P ∈ blameLookup
      (pd.foldl (fun m2 kd => kd.2.foldl (fun m3 dep => blameInsert m3 dep kd.1) m2) m) D := by
  intro pd
  induction pd with
  | nil => intro m P pdeps D h _; exact absurd h (List.not_mem_nil _)
  | cons kd rest ih =>
    intro m P pdeps D h hD
    simp only [List.foldl_cons]
    rcases List.mem_cons.mp h with rfl | hmem
    · exact blame_outer_mono rest _ D P (blame_inner_adds pdeps m P D hD)
    · exact ih _ P pdeps D hmem hD

theorem mkDepBlame_mem (pd : List (String × List String)) (P : String)
    (pdeps : List String) (D : String) (h : (P, pdeps) ∈ pd) (hD : D ∈ pdeps) :
    P ∈ blameLookup (mkDepBlame pd) D :=
  mkDepBlame_mem_general pd [] P pdeps D h hD

/-! ### Counting and labelling the allocated dependency edges -/

theorem mkDepEdges_filter_from_length (s : String) (b : List (String × List String))
    (col : String) : ∀ (deps : List String) (c : Nat) (u : String),
    ((mkDepEdges s b col deps c).filter fun e => edgeFromIs e u).length = deps.count u := by
  intro deps
  induction deps with
  | nil => intro c u; simp [mkDepEdges]
  | cons d rest ih =>
    intro c u
    simp only [mkDepEdges, List.filter_cons]
    have hhead : edgeFromIs (GraphEdge.dep
        { eid := c, to_ := some s, from_ := some d,
          labels := blameLookup b d, color := col }) u = decide (d = u) := by
      simp [edgeFromIs, GraphEdge.From]
    rw [hhead]
    by_cases hdu : d = u
    · subst hdu
      simp [List.count_cons, ih (c + 1)]
    · simp [hdu, Ne.symm hdu, List.count_cons, ih (c + 1) u]

theorem mkDepEdges_from_labels (s : String) (b : List (String × List String)) (col : String)
    (deps : List String) (c : Nat) (e : GraphEdge) (u : String)
    (he : e ∈ mkDepEdges s b col deps c) (hu : GraphEdge.From e = some u) :
    depLabels e = blameLookup b u := by
  obtain ⟨d, cc, hd, rfl⟩ := mkDepEdges_mem s b col deps c e he
  simp only [GraphEdge.From, Option.some.injEq] at hu
  subst hu
  rfl

theorem mkDepEdges_exists_from (s : String) (b : List (String × List String)) (col : String) :
    ∀ (deps : List String) (c : Nat) (u : String), u ∈ deps →
    ∃ e, e ∈ mkDepEdges s b col deps c ∧ GraphEdge.From e = some u := by
  intro deps
  induction deps with
  | nil => intro c u h; exact absurd h (List.not_mem_nil u)
  | cons d rest ih =>
    intro c u h
    rcases List.mem_cons.mp h with rfl | hmem
    · exact ⟨_, List.mem_cons_self _ _, rfl⟩
    · obtain ⟨e, he, hf⟩ := ih (c + 1) u hmem
      exact ⟨e, List.mem_cons_of_mem _ he, hf⟩

/-! ### Assembling the built graph -/

theorem lastWithUrn_mem : ∀ (rs : List ResourceState) (u : String) (r : ResourceState),
    lastWithUrn rs u = some r → r ∈ rs := by
  intro rs
  induction rs with
  | nil => intro u r h; simp [lastWithUrn] at h
  | cons r0 rest ih =>
    intro u r h
    simp only [lastWithUrn] at h
    cases hl : lastWithUrn rest u with
    | some x =>
      rw [hl] at h
      injection h with h
      exact List.mem_cons_of_mem _ (h ▸ ih u x hl)
    | none =>
      rw [hl] at h
      by_cases hu : r0.URN = u
      · rw [if_pos hu] at h
        injection h with h
        exact h ▸ List.mem_cons_self _ _
      · rw [if_neg hu] at h
        exact absurd h (by simp)

theorem lookup_of_mem_nodup : ∀ (m : VertexMap), (keysOf m).Nodup →
    ∀ kv ∈ m, lookupVertex m kv.1 = some kv.2 := by
  intro m
  induction m with
  | nil => intro _ kv hkv; exact absurd hkv (List.not_mem_nil kv)
  | cons kv0 rest ih =>
    obtain ⟨k1, v1⟩ := kv0
    intro hnd kv hkv
    simp only [keysOf_cons, List.nodup_cons] at hnd
    rcases List.mem_cons.mp hkv with rfl | hmem
    · simp [lookupVertex]
    · have hne : k1 ≠ kv.1 := by
        intro hh
        exact hnd.1 (hh ▸ List.mem_map_of_mem Prod.fst hmem)
      simp only [lookupVertex, if_neg hne]
      exact ih hnd.2 kv hmem

theorem edgesConcat_filter_nil (p : GraphEdge → Bool) (f : dependencyVertex → List GraphEdge) :
    ∀ m : VertexMap, (∀ kv ∈ m, (f kv.2).filter p = []) →
    (edgesConcat (m.map fun kv => f kv.2)).filter p = [] := by
  intro m
  induction m with
  | nil => intro _; rfl
  | cons kv0 rest ih =>
    intro hall
    simp only [List.map_cons, edgesConcat, List.foldr_cons, List.filter_append]
    rw [hall kv0 (List.mem_cons_self _ _)]
    have := ih (fun kv2 h2 => hall kv2 (List.mem_cons_of_mem _ h2))
    simp only [edgesConcat] at this
    rw [this]
    rfl

theorem edgesConcat_filter_single (p : GraphEdge → Bool) (f : dependencyVertex → List GraphEdge) :
    ∀ (m : VertexMap) (k : String) (v : dependencyVertex),
      (keysOf m).Nodup → lookupVertex m k = some v →
      (∀ kv ∈ m, kv.1 ≠ k → (f kv.2).filter p = []) →
      (edgesConcat (m.map fun kv => f kv.2)).filter p = (f v).filter p := by
  intro m
  induction m with
  | nil => intro k v _ hl; simp [lookupVertex] at hl
  | cons kv0 rest ih =>
    obtain ⟨k1, v1⟩ := kv0
    intro k v hnd hl hall
    simp only [keysOf_cons, List.nodup_cons] at hnd
    simp only [List.map_cons, edgesConcat, List.foldr_cons, List.filter_append]
    by_cases h1 : k1 = k
    · subst h1
      simp [lookupVertex] at hl
      subst hl
      have hrest : ((edgesConcat (rest.map fun kv => f kv.2)).filter p) = [] := by
        apply edgesConcat_filter_nil
        intro kv2 h2
        apply hall kv2 (List.mem_cons_of_mem _ h2)
        intro hh
        exact hnd.1 (hh ▸ List.mem_map_of_mem Prod.fst h2)
      simp only [edgesConcat] at hrest
      rw [hrest, List.append_nil]
    · simp only [lookupVertex, if_neg h1] at hl
      rw [hall (k1, v1) (List.mem_cons_self _ _) h1]
      have := ih k v hnd.2 hl (fun kv2 h2 hne => hall kv2 (List.mem_cons_of_mem _ h2) hne)
      simp only [edgesConcat] at this
      rw [this, List.nil_append]

theorem roots_filter_count (g : dependencyGraph) (k : String) :
    ((g.Roots).filter fun e => edgeToIs e k).length = (keysOf g.vertices).count k := by
  obtain ⟨m⟩ := g
  induction m with
  | nil => simp [dependencyGraph.Roots, keysOf]
  | cons kv rest ih =>
    obtain ⟨k1, v1⟩ := kv
    simp only [dependencyGraph.Roots, List.map_cons, List.filter_cons] at ih ⊢
    have hhead : edgeToIs (GraphEdge.dep
        { eid := 0, to_ := some k1, from_ := none, labels := [], color := "" }) k
        = decide (k1 = k) := by
      simp [edgeToIs, GraphEdge.To]
    rw [hhead]
    by_cases hk : k1 = k
    · subst hk
      simp [List.count_cons, keysOf_cons, ih]
    · simp [hk, Ne.symm hk, List.count_cons, keysOf_cons, ih]

theorem make_unfold (snap : Snapshot) (opts : graphCommandOptions) (g : dependencyGraph)
    (hmk : makeDependencyGraph snap opts = some g) :
    ∃ st' : VertexMap × Nat,
      pass2 opts (keysOf (pass1 opts.shortNodeName snap.Resources []))
        (pass1 opts.shortNodeName snap.Resources [], 0) = some st' ∧
      g.vertices = st'.1 := by
  simp only [makeDependencyGraph] at hmk
  cases hp : pass2 opts (keysOf (pass1 opts.shortNodeName snap.Resources []))
      (pass1 opts.shortNodeName snap.Resources [], 0) with
  | none => rw [hp] at hmk; exact absurd hmk (by simp)
  | some st' =>
    rw [hp] at hmk
    simp only [Option.some.injEq] at hmk
    exact ⟨st', rfl, by rw [← hmk]⟩

theorem make_keys_nodup (snap : Snapshot) (opts : graphCommandOptions) (g : dependencyGraph)
    (hmk : makeDependencyGraph snap opts = some g) : (keysOf g.vertices).Nodup := by
  obtain ⟨st', hp2, hgv⟩ := make_unfold snap opts g hmk
  rw [hgv, (pass2_stable opts _ _ _ _ hp2).1]
  exact pass1_keys_nodup opts.shortNodeName snap.Resources [] List.nodup_nil

theorem make_member_vertex (snap : Snapshot) (opts : graphCommandOptions)
    (hnd : (snap.Resources.map (·.URN)).Nodup) (R : ResourceState) (hR : R ∈ snap.Resources) :
    lookupVertex (pass1 opts.shortNodeName snap.Resources []) R.URN
      = some (initVertex opts.shortNodeName R) ∧
    R.URN ∈ keysOf (pass1 opts.shortNodeName snap.Resources []) := by
  have h1 : lastWithUrn snap.Resources R.URN = some R := lastWithUrn_of_nodup _ _ hnd hR
  constructor
  · rw [pass1_lookup, h1]
  · rw [pass1_keys_mem]
    right
    exact List.mem_map_of_mem (·.URN) hR

/-- C1: for every graph returned by `makeDependencyGraph`, `Roots` returns
exactly one synthetic edge per vertex — the root-edge count equals the vertex
count regardless of real in-degree, every root edge has `from` nil and `to`
some vertex of the graph, and each vertex is the target of exactly one root
edge. -/
theorem stackgraph_roots_one_edge_per_vertex (snap : Snapshot) (opts : graphCommandOptions)
    (g : dependencyGraph) (hmk : makeDependencyGraph snap opts = some g) :
    g.Roots.length = g.vertices.length ∧
    (∀ e ∈ g.Roots, GraphEdge.From e = none ∧
      ∃ k, k ∈ keysOf g.vertices ∧ GraphEdge.To e = some k) ∧
    (∀ k ∈ keysOf g.vertices, ((g.Roots).filter fun e => edgeToIs e k).length = 1) := by
  refine ⟨List.length_map _ _, ?_, ?_⟩
  · intro e he
    obtain ⟨kv, hkv, rfl⟩ := List.mem_map.mp he
    exact ⟨rfl, kv.1, List.mem_map_of_mem Prod.fst hkv, rfl⟩
  · intro k hk
    rw [roots_filter_count]
    exact List.count_eq_one_of_mem (make_keys_nodup snap opts g hmk) hk

theorem stackgraph_roots_one_edge_per_vertex_witness :
    (makeDependencyGraph
        { Resources := [mkRes "a" [] [] "", mkRes "b" ["a"] [] ""] } optsDefault).isSome = true ∧
    ∀ g, makeDependencyGraph
        { Resources := [mkRes "a" [] [] "", mkRes "b" ["a"] [] ""] } optsDefault = some g →
      g.Roots.length = g.vertices.length := by
  refine ⟨by decide, fun g hg => ?_⟩
  exact (stackgraph_roots_one_edge_per_vertex _ _ g hg).1

/-- C8: when the selected stack's snapshot is absent (`nil`), the command body
returns a terminal error naming the stack before any graph construction or
output-file creation (the effect trace is empty, so no partial output
exists). -/
theorem stackgraph_missing_snapshot_short_circuit (cmdOpts : graphCommandOptions)
    (outputPath : String) (createResult printResult closeResult : Except String Unit) :
    runStackGraphCmd cmdOpts outputPath (Except.ok ()) (Except.ok none)
        createResult printResult closeResult =
      (Except.error ("unable to find snapshot for stack " ++ quoteGo cmdOpts.stackName), []) :=
  rfl

/-- C9: every synthetic root edge has empty `Label` (its label list is unset,
and `strings.Join` of nothing is the empty string) and empty `Color`, while
every real dependency edge stored in the built graph carries the configured
dependency-edge color. -/
theorem stackgraph_root_edges_blank (snap : Snapshot) (opts : graphCommandOptions)
    (g : dependencyGraph) (hmk : makeDependencyGraph snap opts = some g) :
    (∀ e ∈ g.Roots, GraphEdge.Label e = "" ∧ GraphEdge.Color e = "") ∧
    (∀ kv ∈ g.vertices, ∀ e ∈ kv.2.incomingEdges ++ kv.2.outgoingEdges,
      isDepEdge e = true → GraphEdge.Color e = opts.dependencyEdgeColor) := by
  constructor
  · intro e he
    obtain ⟨kv, _, rfl⟩ := List.mem_map.mp he
    exact ⟨rfl, rfl⟩
  · obtain ⟨st', hp2, hgv⟩ := make_unfold snap opts g hmk
    intro kv hkv
    rw [hgv] at hkv
    refine pass2_inv opts
      (fun _ v => ∀ e ∈ v.incomingEdges ++ v.outgoingEdges,
        isDepEdge e = true → GraphEdge.Color e = opts.dependencyEdgeColor)
      ?_ ?_ ?_ _ _ _ _ hp2 ?_ kv hkv
    · intro _ s w cc d lb hw e he hdep
      simp only [appendIn_incoming, appendIn_outgoing] at he
      rcases List.mem_append.mp he with h1 | h1
      · rcases List.mem_append.mp h1 with h2 | h2
        · exact hw e (List.mem_append_left _ h2) hdep
        · rw [List.mem_singleton.mp h2]
          rfl
      · exact hw e (List.mem_append_right _ h1) hdep
    · intro _ s d w cc lb hw e he hdep
      simp only [appendOut_incoming, appendOut_outgoing] at he
      rcases List.mem_append.mp he with h1 | h1
      · exact hw e (List.mem_append_left _ h1) hdep
      · rcases List.mem_append.mp h1 with h2 | h2
        · exact hw e (List.mem_append_right _ h2) hdep
        · rw [List.mem_singleton.mp h2]
          rfl
    · intro _ s w cc topt hw e he hdep
      simp only [appendOut_incoming, appendOut_outgoing] at he
      rcases List.mem_append.mp he with h1 | h1
      · exact hw e (List.mem_append_left _ h1) hdep
      · rcases List.mem_append.mp h1 with h2 | h2
        · exact hw e (List.mem_append_right _ h2) hdep
        · rw [List.mem_singleton.mp h2] at hdep
          simp [isDepEdge] at hdep
    · exact pass1_forall opts.shortNodeName
        (fun _ v => ∀ e ∈ v.incomingEdges ++ v.outgoingEdges,
          isDepEdge e = true → GraphEdge.Color e = opts.dependencyEdgeColor)
        snap.Resources []
        (fun kv2 hkv2 => absurd hkv2 (List.not_mem_nil kv2))
        (fun r _ e he _ => absurd he (List.not_mem_nil e))

theorem stackgraph_root_edges_blank_witness :
    (makeDependencyGraph { Resources := [mkRes "a" [] [] ""] } optsDefault).isSome = true ∧
    ∀ g, makeDependencyGraph { Resources := [mkRes "a" [] [] ""] } optsDefault = some g →
      ∀ e ∈ g.Roots, GraphEdge.Label e = "" ∧ GraphEdge.Color e = "" := by
  refine ⟨by decide, fun g hg => ?_⟩
  exact (stackgraph_root_edges_blank _ _ g hg).1

/-- C10: when the snapshot holds several records with the same URN, the built
graph keeps exactly one vertex per distinct URN, that vertex references the
last such record in snapshot order, and the vertex count is the number of
distinct URNs (not the number of records). -/
theorem stackgraph_duplicate_urn_last_wins (snap : Snapshot) (opts : graphCommandOptions)
    (g : dependencyGraph) (hmk : makeDependencyGraph snap opts = some g) :
    (∀ u, resourceOf g.vertices u = lastWithUrn snap.Resources u) ∧
    g.vertices.length = (snap.Resources.map (·.URN)).dedup.length := by
  obtain ⟨st', hp2, hgv⟩ := make_unfold snap opts g hmk
  obtain ⟨hkeys, hres⟩ := pass2_stable opts _ _ _ _ hp2
  constructor
  · intro u
    rw [hgv, hres u]
    unfold resourceOf
    rw [pass1_lookup]
    cases hl : lastWithUrn snap.Resources u with
    | some r => rfl
    | none => rfl
  · have h1 : (keysOf g.vertices).Nodup := make_keys_nodup snap opts g hmk
    have h2 : ∀ u, u ∈ keysOf g.vertices ↔ u ∈ (snap.Resources.map (·.URN)).dedup := by
      intro u
      rw [hgv, hkeys, pass1_keys_mem, List.mem_dedup]
      constructor
      · rintro (hh | hh)
        · simp [keysOf] at hh
        · exact hh
      · intro hh
        right
        exact hh
    have hperm := (List.perm_ext_iff_of_nodup h1 (List.nodup_dedup _)).mpr h2
    rw [← keysOf_length]
    exact hperm.length_eq

theorem stackgraph_duplicate_urn_last_wins_witness :
    (makeDependencyGraph
        { Resources := [mkRes "a" [] [] "", mkRes "a" ["a"] [] "p"] } optsDefault).isSome
      = true ∧
    ∀ g, makeDependencyGraph
        { Resources := [mkRes "a" [] [] "", mkRes "a" ["a"] [] "p"] } optsDefault = some g →
      (∀ u, resourceOf g.vertices u
        = lastWithUrn [mkRes "a" [] [] "", mkRes "a" ["a"] [] "p"] u) ∧
      g.vertices.length = 1 := by
  refine ⟨by decide, fun g hg => ?_⟩
  have h := stackgraph_duplicate_urn_last_wins _ _ g hg
  exact ⟨h.1, by rw [h.2]; decide⟩

/-- C5: with `ignoreDependencyEdges` set the built graph stores zero
dependency edges (across all incoming and outgoing lists), and with
`ignoreParentEdges` set it stores zero parent edges, regardless of the
resources' dependency lists and parent fields. -/
theorem stackgraph_ignore_flags (snap : Snapshot) (opts : graphCommandOptions)
    (g : dependencyGraph) (hmk : makeDependencyGraph snap opts = some g) :
    (opts.ignoreDependencyEdges = true → depEdgeCount g = 0) ∧
    (opts.ignoreParentEdges = true → parEdgeCount g = 0) := by
  obtain ⟨st', hp2, hgv⟩ := make_unfold snap opts g hmk
  constructor
  · intro hig
    have hinv : ∀ kv ∈ st'.1, kv.2.incomingEdges.filter isDepEdge = [] ∧
        kv.2.outgoingEdges.filter isDepEdge = [] := by
      refine pass2_inv opts
        (fun _ v => v.incomingEdges.filter isDepEdge = [] ∧
          v.outgoingEdges.filter isDepEdge = []) ?_ ?_ ?_ _ _ _ _ hp2 ?_
      · intro hfalse
        rw [hfalse] at hig
        exact absurd hig (by simp)
      · intro hfalse
        rw [hfalse] at hig
        exact absurd hig (by simp)
      · intro _ s w cc topt hw
        refine ⟨hw.1, ?_⟩
        simp only [appendOut_outgoing, List.filter_append, hw.2]
        simp [isDepEdge]
      · exact pass1_forall opts.shortNodeName
          (fun _ v => v.incomingEdges.filter isDepEdge = [] ∧
            v.outgoingEdges.filter isDepEdge = [])
          snap.Resources []
          (fun kv hkv => absurd hkv (List.not_mem_nil kv))
          (fun r _ => ⟨rfl, rfl⟩)
    unfold depEdgeCount allIncoming allOutgoing
    rw [hgv]
    rw [edgesConcat_filter_nil _ _ _ (fun kv h => (hinv kv h).1),
        edgesConcat_filter_nil _ _ _ (fun kv h => (hinv kv h).2)]
    rfl
  · intro hig
    have hinv : ∀ kv ∈ st'.1, kv.2.incomingEdges.filter isParEdge = [] ∧
        kv.2.outgoingEdges.filter isParEdge = [] := by
      refine pass2_inv opts
        (fun _ v => v.incomingEdges.filter isParEdge = [] ∧
          v.outgoingEdges.filter isParEdge = []) ?_ ?_ ?_ _ _ _ _ hp2 ?_
      · intro _ s w cc d lb hw
        refine ⟨?_, hw.2⟩
        simp only [appendIn_incoming, List.filter_append, hw.1]
        simp [isParEdge]
      · intro _ s d w cc lb hw
        refine ⟨hw.1, ?_⟩
        simp only [appendOut_outgoing, List.filter_append, hw.2]
        simp [isParEdge]
      · intro hfalse
        rw [hfalse] at hig
        exact absurd hig (by simp)
      · exact pass1_forall opts.shortNodeName
          (fun _ v => v.incomingEdges.filter isParEdge = [] ∧
            v.outgoingEdges.filter isParEdge = [])
          snap.Resources []
          (fun kv hkv => absurd hkv (List.not_mem_nil kv))
          (fun r _ => ⟨rfl, rfl⟩)
    unfold parEdgeCount allIncoming allOutgoing
    rw [hgv]
    rw [edgesConcat_filter_nil _ _ _ (fun kv h => (hinv kv h).1),
        edgesConcat_filter_nil _ _ _ (fun kv h => (hinv kv h).2)]
    rfl

theorem stackgraph_ignore_flags_witness :
    (makeDependencyGraph
        { Resources := [mkRes "a" [] [] "", mkRes "b" ["a"] [] "a"] }
        { optsDefault with ignoreDependencyEdges := true,
                           ignoreParentEdges := true }).isSome = true ∧
    ∀ g, makeDependencyGraph
        { Resources := [mkRes "a" [] [] "", mkRes "b" ["a"] [] "a"] }
        { optsDefault with ignoreDependencyEdges := true,
                           ignoreParentEdges := true } = some g →
      depEdgeCount g = 0 ∧ parEdgeCount g = 0 := by
  refine ⟨by decide, fun g hg => ?_⟩
  have h := stackgraph_ignore_flags _ _ g hg
  exact ⟨h.1 rfl, h.2 rfl⟩

/-- C6: a snapshot of `N` resources with distinct URNs and no dependencies,
no property dependencies and no parents builds a graph with exactly `N`
vertices, zero dependency edges, zero parent edges, and exactly `N` root
edges. -/
theorem stackgraph_no_references_shape (rs : List ResourceState) (opts : graphCommandOptions)
    (hnd : (rs.map (·.URN)).Nodup)
    (hempty : ∀ r ∈ rs, r.Dependencies = [] ∧ r.PropertyDependencies = [] ∧ r.Parent = "") :
    ∃ g, makeDependencyGraph { Resources := rs } opts = some g ∧
      g.vertices.length = rs.length ∧ depEdgeCount g = 0 ∧ parEdgeCount g = 0 ∧
      g.Roots.length = rs.length := by
  have hid : pass2 opts (keysOf (pass1 opts.shortNodeName rs []))
      (pass1 opts.shortNodeName rs [], 0) = some (pass1 opts.shortNodeName rs [], 0) := by
    apply pass2_id
    intro k hk
    rw [pass1_lookup]
    cases hl : lastWithUrn rs k with
    | none =>
      exfalso
      rcases (pass1_keys_mem opts.shortNodeName rs [] k).mp hk with hh | hh
      · simp [keysOf] at hh
      · exact absurd ((lastWithUrn_isSome rs k).mpr hh) (by rw [hl]; simp)
    | some r =>
      refine ⟨initVertex opts.shortNodeName r, rfl, ?_, ?_⟩
      · exact (hempty r (lastWithUrn_mem rs k r hl)).1
      · exact (hempty r (lastWithUrn_mem rs k r hl)).2.2
  have hlen : (pass1 opts.shortNodeName rs []).length = rs.length := by
    have := pass1_length opts.shortNodeName rs [] hnd (fun r _ => by simp [keysOf])
    simpa using this
  have hinit : ∀ kv ∈ pass1 opts.shortNodeName rs [],
      kv.2.incomingEdges = [] ∧ kv.2.outgoingEdges = [] :=
    pass1_forall opts.shortNodeName
      (fun _ v => v.incomingEdges = [] ∧ v.outgoingEdges = []) rs []
      (fun kv hkv => absurd hkv (List.not_mem_nil kv)) (fun r _ => ⟨rfl, rfl⟩)
  refine ⟨{ vertices := pass1 opts.shortNodeName rs [] }, ?_, hlen, ?_, ?_, ?_⟩
  · simp only [makeDependencyGraph, hid]
  · unfold depEdgeCount allIncoming allOutgoing
    rw [edgesConcat_filter_nil _ _ _ (fun kv h => by rw [(hinit kv h).1]; rfl),
        edgesConcat_filter_nil _ _ _ (fun kv h => by rw [(hinit kv h).2]; rfl)]
    rfl
  · unfold parEdgeCount allIncoming allOutgoing
    rw [edgesConcat_filter_nil _ _ _ (fun kv h => by rw [(hinit kv h).1]; rfl),
        edgesConcat_filter_nil _ _ _ (fun kv h => by rw [(hinit kv h).2]; rfl)]
    rfl
  · rw [dependencyGraph.Roots, List.length_map]
    exact hlen

theorem stackgraph_no_references_shape_witness :
    ((([mkRes "x" [] [] "", mkRes "y" [] [] ""].map (·.URN)).Nodup : Prop) ∧
      ∀ r ∈ [mkRes "x" [] [] "", mkRes "y" [] [] ""],
        r.Dependencies = [] ∧ r.PropertyDependencies = [] ∧ r.Parent = "") ∧
    ∃ g, makeDependencyGraph
        { Resources := [mkRes "x" [] [] "", mkRes "y" [] [] ""] } optsDefault = some g ∧
      g.vertices.length = 2 ∧ depEdgeCount g = 0 ∧ parEdgeCount g = 0 ∧
      g.Roots.length = 2 := by
  refine ⟨⟨by decide, by decide⟩, ?_⟩
  exact stackgraph_no_references_shape [mkRes "x" [] [] "", mkRes "y" [] [] ""] optsDefault
    (by decide) (by decide)

/-- C2 (counterexample): with distinct, self-consistent URNs, a resource that
lists the same dependency URN twice gets two dependency edges with `to` its
vertex and `from` the dependency's vertex, not exactly one: the snapshot
`[a; b with Dependencies [a, a]]` yields two such edges in `b`'s incoming
list. -/
theorem stackgraph_dup_dependency_cex :
    (makeDependencyGraph { Resources := [mkRes "a" [] [] "", mkRes "b" ["a", "a"] [] ""] }
        optsDefault).map
      (fun g => (((incomingOf g.vertices "b").getD []).filter (isDepToFrom "b" "a")).length)
      = some 2 := by
  rfl

/-- C2 (amended): for a snapshot with distinct, self-consistent URNs, a
resource `R` listing dependency URN `D` gets one dependency edge with `to` =
vertex(R), `from` = vertex(D) per occurrence of `D` in `R.Dependencies` (so
exactly one when `D` is listed once, and at least one).  The filtered edge
lists coincide (the very same edge allocations, `eid`s included, sit in `R`'s
incoming list and in `D`'s outgoing list), and graph-wide nothing else holds
such an edge. -/
theorem stackgraph_dependency_edges_per_occurrence
    (snap : Snapshot) (opts : graphCommandOptions) (g : dependencyGraph)
    (hmk : makeDependencyGraph snap opts = some g)
    (hid : opts.ignoreDependencyEdges = false)
    (hnd : (snap.Resources.map (·.URN)).Nodup)
    (R : ResourceState) (hR : R ∈ snap.Resources)
    (D : String) (hD : D ∈ R.Dependencies) :
    ∃ inc outg,
      incomingOf g.vertices R.URN = some inc ∧
      outgoingOf g.vertices D = some outg ∧
      inc.filter (isDepToFrom R.URN D) = outg.filter (isDepToFrom R.URN D) ∧
      (inc.filter (isDepToFrom R.URN D)).length = R.Dependencies.count D ∧
      1 ≤ (inc.filter (isDepToFrom R.URN D)).length ∧
      ((allIncoming g).filter (isDepToFrom R.URN D)).length = R.Dependencies.count D ∧
      ((allOutgoing g).filter (isDepToFrom R.URN D)).length = R.Dependencies.count D := by
  obtain ⟨st', hp2, hgv⟩ := make_unfold snap opts g hmk
  obtain ⟨hv0, hkmem⟩ := make_member_vertex snap opts hnd R hR
  have hksnd : (keysOf (pass1 opts.shortNodeName snap.Resources [])).Nodup :=
    pass1_keys_nodup opts.shortNodeName snap.Resources [] List.nodup_nil
  obtain ⟨c1, hinc, hout⟩ :=
    pass2_R_char opts R.URN hid _ _ _ _ _ hksnd hkmem hp2 hv0
  simp only [initVertex, List.nil_append] at hinc hout
  have hfinkeys : keysOf st'.1 = keysOf (pass1 opts.shortNodeName snap.Resources []) :=
    (pass2_stable opts _ _ _ _ hp2).1
  have hDsome : (lookupVertex (pass1 opts.shortNodeName snap.Resources []) D).isSome :=
    pass2_some_resolve opts hid _ _ _ _ hp2 R.URN hkmem _ hv0 D hD
  -- the initial vertex of D has an empty outgoing list
  have hDout : outgoingOf (pass1 opts.shortNodeName snap.Resources []) D = some [] := by
    unfold outgoingOf
    rw [pass1_lookup] at hDsome ⊢
    cases hl : lastWithUrn snap.Resources D with
    | none =>
      exfalso
      rw [hl] at hDsome
      simp [lookupVertex] at hDsome
    | some r2 => rfl
  -- the final maps at R.URN and D
  have houtD := hout D
  have hDinit : outToFilter R.URN (pass1 opts.shortNodeName snap.Resources []) D = some [] := by
    unfold outToFilter
    rw [hDout]
    rfl
  rw [hDinit] at houtD
  simp only [Option.map_some', List.nil_append] at houtD
  cases hlIn : lookupVertex st'.1 R.URN with
  | none => rw [incomingOf, hlIn] at hinc; exact absurd hinc (by simp)
  | some vIn =>
  cases hlOut : lookupVertex st'.1 D with
  | none => rw [outToFilter, outgoingOf, hlOut] at houtD; exact absurd houtD (by simp)
  | some vOut =>
  have hinc2 : vIn.incomingEdges =
      mkDepEdges R.URN (mkDepBlame R.PropertyDependencies) opts.dependencyEdgeColor
        R.Dependencies c1 := by
    rw [incomingOf, hlIn] at hinc
    simpa using hinc
  have houtD2 : vOut.outgoingEdges.filter (fun e => isDepEdge e && edgeToIs e R.URN) =
      (mkDepEdges R.URN (mkDepBlame R.PropertyDependencies) opts.dependencyEdgeColor
        R.Dependencies c1).filter (fun e => edgeFromIs e D) := by
    rw [outToFilter, outgoingOf, hlOut] at houtD
    simpa using houtD
  have hpfun : ∀ (l : List GraphEdge), l.filter (isDepToFrom R.URN D) =
      (l.filter fun e => isDepEdge e && edgeToIs e R.URN).filter fun e => edgeFromIs e D := by
    intro l
    rw [List.filter_filter]
    apply List.filter_congr
    intro e _
    simp [isDepToFrom, Bool.and_comm, Bool.and_assoc, Bool.and_left_comm]
  have hmkfilter :
      (mkDepEdges R.URN (mkDepBlame R.PropertyDependencies) opts.dependencyEdgeColor
        R.Dependencies c1).filter (isDepToFrom R.URN D) =
      (mkDepEdges R.URN (mkDepBlame R.PropertyDependencies) opts.dependencyEdgeColor
        R.Dependencies c1).filter fun e => edgeFromIs e D := by
    apply List.filter_congr
    intro e he
    show (isDepEdge e && edgeToIs e R.URN && edgeFromIs e D) = edgeFromIs e D
    rw [mkDepEdges_to_self _ _ _ _ _ _ he]
    simp
  have hinc3 : vIn.incomingEdges.filter (isDepToFrom R.URN D) =
      (mkDepEdges R.URN (mkDepBlame R.PropertyDependencies) opts.dependencyEdgeColor
        R.Dependencies c1).filter fun e => edgeFromIs e D := by
    rw [hinc2, hmkfilter]
  have hout3 : vOut.outgoingEdges.filter (isDepToFrom R.URN D) =
      (mkDepEdges R.URN (mkDepBlame R.PropertyDependencies) opts.dependencyEdgeColor
        R.Dependencies c1).filter fun e => edgeFromIs e D := by
    rw [hpfun, houtD2]
    apply List.filter_eq_self.mpr
    intro e he
    exact (List.mem_filter.mp he).2
  have hcount : ((mkDepEdges R.URN (mkDepBlame R.PropertyDependencies)
      opts.dependencyEdgeColor R.Dependencies c1).filter
        fun e => edgeFromIs e D).length = R.Dependencies.count D :=
    mkDepEdges_filter_from_length _ _ _ _ _ _
  have hpos : 1 ≤ ((mkDepEdges R.URN (mkDepBlame R.PropertyDependencies)
      opts.dependencyEdgeColor R.Dependencies c1).filter
        fun e => edgeFromIs e D).length := by
    obtain ⟨e, hemem, hef⟩ :=
      mkDepEdges_exists_from R.URN (mkDepBlame R.PropertyDependencies)
        opts.dependencyEdgeColor R.Dependencies c1 D hD
    exact List.length_pos_of_mem
      (List.mem_filter.mpr ⟨hemem, by simp [edgeFromIs, hef]⟩)
  -- invariant: every incoming edge points at its own vertex
  have hInvA : ∀ kv ∈ st'.1, ∀ e ∈ kv.2.incomingEdges, GraphEdge.To e = some kv.1 := by
    refine pass2_inv opts
      (fun k v => ∀ e ∈ v.incomingEdges, GraphEdge.To e = some k)
      ?_ ?_ ?_ _ _ _ _ hp2 ?_
    · intro _ s w cc d lb hw e he
      simp only [appendIn_incoming] at he
      rcases List.mem_append.mp he with h1 | h1
      · exact hw e h1
      · rw [List.mem_singleton.mp h1]
        rfl
    · intro _ s d w cc lb hw e he
      exact hw e he
    · intro _ s w cc topt hw e he
      exact hw e he
    · exact pass1_forall opts.shortNodeName
        (fun k v => ∀ e ∈ v.incomingEdges, GraphEdge.To e = some k)
        snap.Resources []
        (fun kv hkv => absurd hkv (List.not_mem_nil kv))
        (fun r _ e he => absurd he (List.not_mem_nil e))
  -- invariant: every outgoing edge leaves its own vertex
  have hInvB : ∀ kv ∈ st'.1, ∀ e ∈ kv.2.outgoingEdges, GraphEdge.From e = some kv.1 := by
    refine pass2_inv opts
      (fun k v => ∀ e ∈ v.outgoingEdges, GraphEdge.From e = some k)
      ?_ ?_ ?_ _ _ _ _ hp2 ?_
    · intro _ s w cc d lb hw e he
      exact hw e he
    · intro _ s d w cc lb hw e he
      simp only [appendOut_outgoing] at he
      rcases List.mem_append.mp he with h1 | h1
      · exact hw e h1
      · rw [List.mem_singleton.mp h1]
        rfl
    · intro _ s w cc topt hw e he
      simp only [appendOut_outgoing] at he
      rcases List.mem_append.mp he with h1 | h1
      · exact hw e h1
      · rw [List.mem_singleton.mp h1]
        rfl
    · exact pass1_forall opts.shortNodeName
        (fun k v => ∀ e ∈ v.outgoingEdges, GraphEdge.From e = some k)
        snap.Resources []
        (fun kv hkv => absurd hkv (List.not_mem_nil kv))
        (fun r _ e he => absurd he (List.not_mem_nil e))
  have hfinnd : (keysOf st'.1).Nodup := by
    rw [hfinkeys]
    exact hksnd
  have hallIn : (edgesConcat (st'.1.map fun kv => kv.2.incomingEdges)).filter
      (isDepToFrom R.URN D) = vIn.incomingEdges.filter (isDepToFrom R.URN D) := by
    apply edgesConcat_filter_single _ _ st'.1 R.URN vIn hfinnd hlIn
    intro kv hkv hne
    apply List.filter_eq_nil_iff.mpr
    intro e he
    have hto := hInvA kv hkv e he
    simp [isDepToFrom, edgeToIs, hto, fun hh : kv.1 = R.URN => hne hh]
  have hallOut : (edgesConcat (st'.1.map fun kv => kv.2.outgoingEdges)).filter
      (isDepToFrom R.URN D) = vOut.outgoingEdges.filter (isDepToFrom R.URN D) := by
    apply edgesConcat_filter_single _ _ st'.1 D vOut hfinnd hlOut
    intro kv hkv hne
    apply List.filter_eq_nil_iff.mpr
    intro e he
    have hfrom := hInvB kv hkv e he
    simp [isDepToFrom, edgeFromIs, hfrom, fun hh : kv.1 = D => hne hh]
  refine ⟨vIn.incomingEdges, vOut.outgoingEdges, ?_, ?_, ?_, ?_, ?_, ?_, ?_⟩
  · rw [hgv, incomingOf, hlIn]
    simp
  · rw [hgv, outgoingOf, hlOut]
    simp
  · rw [hinc3, hout3]
  · rw [hinc3, hcount]
  · rw [hinc3]
    exact hpos
  · unfold allIncoming
    rw [hgv, hallIn, hinc3, hcount]
  · unfold allOutgoing
    rw [hgv, hallOut, hout3, hcount]

theorem stackgraph_dependency_edges_per_occurrence_witness :
    (makeDependencyGraph { Resources := [mkRes "a" [] [] "", mkRes "b" ["a"] [] ""] }
        optsDefault).isSome = true ∧
    ∀ g, makeDependencyGraph { Resources := [mkRes "a" [] [] "", mkRes "b" ["a"] [] ""] }
        optsDefault = some g →
      ∃ inc outg,
        incomingOf g.vertices "b" = some inc ∧
        outgoingOf g.vertices "a" = some outg ∧
        inc.filter (isDepToFrom "b" "a") = outg.filter (isDepToFrom "b" "a") ∧
        (inc.filter (isDepToFrom "b" "a")).length = 1 := by
  refine ⟨by decide, fun g hg => ?_⟩
  obtain ⟨inc, outg, h1, h2, h3, h4, _, _, _⟩ :=
    stackgraph_dependency_edges_per_occurrence _ optsDefault g hg rfl (by decide)
      (mkRes "b" ["a"] [] "") (by decide) "a" (by decide)
  exact ⟨inc, outg, h1, h2, h3, h4.trans (by decide)⟩

/-- C3: if property `prop` of resource `R` lists URN `D` in
`PropertyDependencies`, then every dependency edge built for `D` (they exist
exactly when `D` is also in `R.Dependencies`) carries `prop` in its label
set; the builder inverts the property map into a per-target blame set, so
two properties that both depend on `D` both appear on the same edge. -/
theorem stackgraph_property_blame_labels
    (snap : Snapshot) (opts : graphCommandOptions) (g : dependencyGraph)
    (hmk : makeDependencyGraph snap opts = some g)
    (hid : opts.ignoreDependencyEdges = false)
    (hnd : (snap.Resources.map (·.URN)).Nodup)
    (R : ResourceState) (hR : R ∈ snap.Resources)
    (prop : String) (pdeps : List String) (hP : (prop, pdeps) ∈ R.PropertyDependencies)
    (D : String) (hDp : D ∈ pdeps) :
    ∃ inc, incomingOf g.vertices R.URN = some inc ∧
      (∀ e ∈ inc, GraphEdge.From e = some D → prop ∈ depLabels e) ∧
      (D ∈ R.Dependencies → ∃ e ∈ inc, GraphEdge.From e = some D ∧ prop ∈ depLabels e) := by
  obtain ⟨st', hp2, hgv⟩ := make_unfold snap opts g hmk
  obtain ⟨hv0, hkmem⟩ := make_member_vertex snap opts hnd R hR
  have hksnd : (keysOf (pass1 opts.shortNodeName snap.Resources [])).Nodup :=
    pass1_keys_nodup opts.shortNodeName snap.Resources [] List.nodup_nil
  obtain ⟨c1, hinc, _⟩ :=
    pass2_R_char opts R.URN hid _ _ _ _ _ hksnd hkmem hp2 hv0
  simp only [initVertex, List.nil_append] at hinc
  have hblame : prop ∈ blameLookup (mkDepBlame R.PropertyDependencies) D :=
    mkDepBlame_mem R.PropertyDependencies prop pdeps D hP hDp
  refine ⟨mkDepEdges R.URN (mkDepBlame R.PropertyDependencies) opts.dependencyEdgeColor
      R.Dependencies c1, by rw [hgv]; exact hinc, ?_, ?_⟩
  · intro e he hef
    rw [mkDepEdges_from_labels _ _ _ _ _ _ _ he hef]
    exact hblame
  · intro hD
    obtain ⟨e, hemem, hef⟩ :=
      mkDepEdges_exists_from R.URN (mkDepBlame R.PropertyDependencies)
        opts.dependencyEdgeColor R.Dependencies c1 D hD
    refine ⟨e, hemem, hef, ?_⟩
    rw [mkDepEdges_from_labels _ _ _ _ _ _ _ hemem hef]
    exact hblame

theorem stackgraph_property_blame_labels_witness :
    (makeDependencyGraph
        { Resources := [mkRes "a" [] [] "",
                        mkRes "b" ["a"] [("input", ["a"]), ("size", ["a"])] ""] }
        optsDefault).isSome = true ∧
    ∀ g, makeDependencyGraph
        { Resources := [mkRes "a" [] [] "",
                        mkRes "b" ["a"] [("input", ["a"]), ("size", ["a"])] ""] }
        optsDefault = some g →
      ∃ inc, incomingOf g.vertices "b" = some inc ∧
        ∃ e ∈ inc, GraphEdge.From e = some "a" ∧
          "input" ∈ depLabels e ∧ "size" ∈ depLabels e := by
  refine ⟨by decide, fun g hg => ?_⟩
  obtain ⟨inc, h1, hall, hex⟩ :=
    stackgraph_property_blame_labels _ optsDefault g hg rfl (by decide)
      (mkRes "b" ["a"] [("input", ["a"]), ("size", ["a"])] "") (by decide)
      "input" ["a"] (by decide) "a" (by decide)
  obtain ⟨inc2, h2, hall2, _⟩ :=
    stackgraph_property_blame_labels _ optsDefault g hg rfl (by decide)
      (mkRes "b" ["a"] [("input", ["a"]), ("size", ["a"])] "") (by decide)
      "size" ["a"] (by decide) "a" (by decide)
  obtain ⟨e, hemem, hef, hlab⟩ := hex (by decide)
  refine ⟨inc, h1, e, hemem, hef, hlab, ?_⟩
  have hsame : inc2 = inc := by
    rw [h1] at h2
    injection h2 with h2e
    exact h2e.symm
  exact hall2 e (hsame ▸ hemem) hef

/-- C4: a resource `R` with non-empty parent `X` (parent edges not ignored)
gets exactly one parent edge, with `to` = vertex(X) and `from` = vertex(R),
appended to `R`'s outgoing list only: no incoming list anywhere holds a
parent edge, and no other vertex's outgoing list holds a parent edge leaving
`R`. -/
theorem stackgraph_parent_edge_asymmetry
    (snap : Snapshot) (opts : graphCommandOptions) (g : dependencyGraph)
    (hmk : makeDependencyGraph snap opts = some g)
    (hip : opts.ignoreParentEdges = false)
    (hnd : (snap.Resources.map (·.URN)).Nodup)
    (R : ResourceState) (hR : R ∈ snap.Resources) (hpne : R.Parent ≠ "")
    (hX : R.Parent ∈ snap.Resources.map (·.URN)) :
    (∃ outg ce, outgoingOf g.vertices R.URN = some outg ∧
      outg.filter isParEdge = [GraphEdge.par
        { eid := ce, to_ := some R.Parent, from_ := some R.URN,
          color := opts.parentEdgeColor }]) ∧
    (∀ kv ∈ g.vertices, kv.2.incomingEdges.filter isParEdge = []) ∧
    (∀ kv ∈ g.vertices, kv.1 ≠ R.URN →
      kv.2.outgoingEdges.filter (fun e => isParEdge e && edgeFromIs e R.URN) = []) := by
  obtain ⟨st', hp2, hgv⟩ := make_unfold snap opts g hmk
  obtain ⟨hv0, hkmem⟩ := make_member_vertex snap opts hnd R hR
  have hksnd : (keysOf (pass1 opts.shortNodeName snap.Resources [])).Nodup :=
    pass1_keys_nodup opts.shortNodeName snap.Resources [] List.nodup_nil
  obtain ⟨ce, hpar⟩ :=
    pass2_parent_char opts R.URN hip _ _ _ _ _ hksnd hkmem hp2 hv0 hpne
  simp only [initVertex] at hpar
  have hXsome : (lookupVertex (pass1 opts.shortNodeName snap.Resources []) R.Parent).isSome
      = true := by
    rw [← mem_keysOf_iff_isSome, pass1_keys_mem]
    right
    exact hX
  rw [hXsome] at hpar
  have hinit : outParFilter (pass1 opts.shortNodeName snap.Resources []) R.URN = some [] := by
    unfold outParFilter outgoingOf
    rw [hv0]
    rfl
  rw [hinit] at hpar
  simp only [Option.map_some', List.nil_append, if_true] at hpar
  refine ⟨?_, ?_, ?_⟩
  · cases hl : lookupVertex st'.1 R.URN with
    | none => rw [outParFilter, outgoingOf, hl] at hpar; exact absurd hpar (by simp)
    | some vR =>
      refine ⟨vR.outgoingEdges, ce, ?_, ?_⟩
      · rw [hgv, outgoingOf, hl]
        simp
      · rw [outParFilter, outgoingOf, hl] at hpar
        simpa using hpar
  · intro kv hkv
    rw [hgv] at hkv
    apply List.filter_eq_nil_iff.mpr
    intro e he hparq
    have hnp : ∀ e2 ∈ kv.2.incomingEdges, isParEdge e2 = false := by
      refine pass2_inv opts
        (fun _ v => ∀ e2 ∈ v.incomingEdges, isParEdge e2 = false)
        ?_ ?_ ?_ _ _ _ _ hp2 ?_ kv hkv
      · intro _ s w cc d lb hw e2 he2
        simp only [appendIn_incoming] at he2
        rcases List.mem_append.mp he2 with h1 | h1
        · exact hw e2 h1
        · rw [List.mem_singleton.mp h1]
          rfl
      · intro _ s d w cc lb hw e2 he2
        exact hw e2 he2
      · intro _ s w cc topt hw e2 he2
        exact hw e2 he2
      · exact pass1_forall opts.shortNodeName
          (fun _ v => ∀ e2 ∈ v.incomingEdges, isParEdge e2 = false)
          snap.Resources []
          (fun kv2 hkv2 => absurd hkv2 (List.not_mem_nil kv2))
          (fun r _ e2 he2 => absurd he2 (List.not_mem_nil e2))
    rw [hnp e he] at hparq
    exact absurd hparq (by simp)
  · intro kv hkv hne
    rw [hgv] at hkv
    apply List.filter_eq_nil_iff.mpr
    intro e he
    have hfr : ∀ e2 ∈ kv.2.outgoingEdges, GraphEdge.From e2 = some kv.1 := by
      refine pass2_inv opts
        (fun k v => ∀ e2 ∈ v.outgoingEdges, GraphEdge.From e2 = some k)
        ?_ ?_ ?_ _ _ _ _ hp2 ?_ kv hkv
      · intro _ s w cc d lb hw e2 he2
        exact hw e2 he2
      · intro _ s d w cc lb hw e2 he2
        simp only [appendOut_outgoing] at he2
        rcases List.mem_append.mp he2 with h1 | h1
        · exact hw e2 h1
        · rw [List.mem_singleton.mp h1]
          rfl
      · intro _ s w cc topt hw e2 he2
        simp only [appendOut_outgoing] at he2
        rcases List.mem_append.mp he2 with h1 | h1
        · exact hw e2 h1
        · rw [List.mem_singleton.mp h1]
          rfl
      · exact pass1_forall opts.shortNodeName
          (fun k v => ∀ e2 ∈ v.outgoingEdges, GraphEdge.From e2 = some k)
          snap.Resources []
          (fun kv2 hkv2 => absurd hkv2 (List.not_mem_nil kv2))
          (fun r _ e2 he2 => absurd he2 (List.not_mem_nil e2))
    have := hfr e he
    simp [edgeFromIs, this, fun hh : kv.1 = R.URN => hne hh]

theorem stackgraph_parent_edge_asymmetry_witness :
    (makeDependencyGraph
        { Resources := [mkRes "p" [] [] "", mkRes "c" [] [] "p"] } optsDefault).isSome
      = true ∧
    ∀ g, makeDependencyGraph
        { Resources := [mkRes "p" [] [] "", mkRes "c" [] [] "p"] } optsDefault = some g →
      ∃ outg ce, outgoingOf g.vertices "c" = some outg ∧
        outg.filter isParEdge = [GraphEdge.par
          { eid := ce, to_ := some "p", from_ := some "c", color := "#AA6639" }] := by
  refine ⟨by decide, fun g hg => ?_⟩
  exact (stackgraph_parent_edge_asymmetry _ optsDefault g hg rfl (by decide)
    (mkRes "c" [] [] "p") (by decide) (by decide) (by decide)).1

/-- C7 (counterexample): a parent URN with no corresponding vertex does not
make the builder fail: on the snapshot `[a with Parent "zz"]` the build
succeeds and silently appends a parent edge whose `to` endpoint is the nil
pointer to `a`'s outgoing list. -/
theorem stackgraph_missing_parent_silent_cex :
    (makeDependencyGraph { Resources := [mkRes "a" [] [] "zz"] } optsDefault).map
      (fun g => (outgoingOf g.vertices "a").getD []) =
    some [GraphEdge.par { eid := 0, to_ := none, from_ := some "a", color := "#AA6639" }] := by
  rfl

/-- C7 (amended): a dependency URN with no vertex makes the builder fail
loudly — the nil-pointer dereference aborts the build, so whenever a graph
is returned every dependency URN of every vertex resolves; a missing parent
URN, by contrast, is silently tolerated: the builder still returns a graph
and gives the child a parent edge whose `to` endpoint is nil. -/
theorem stackgraph_referential_miss
    (snap : Snapshot) (opts : graphCommandOptions) (g : dependencyGraph)
    (hmk : makeDependencyGraph snap opts = some g) :
    (opts.ignoreDependencyEdges = false →
      ∀ kv ∈ g.vertices, ∀ d ∈ kv.2.resource.Dependencies, d ∈ keysOf g.vertices) ∧
    (opts.ignoreParentEdges = false →
      ∀ kv ∈ g.vertices, kv.2.resource.Parent ≠ "" →
        lookupVertex g.vertices kv.2.resource.Parent = none →
        ∃ e ∈ kv.2.outgoingEdges, isParEdge e = true ∧ GraphEdge.To e = none) := by
  obtain ⟨st', hp2, hgv⟩ := make_unfold snap opts g hmk
  have hksnd : (keysOf (pass1 opts.shortNodeName snap.Resources [])).Nodup :=
    pass1_keys_nodup opts.shortNodeName snap.Resources [] List.nodup_nil
  have hfinkeys : keysOf st'.1 = keysOf (pass1 opts.shortNodeName snap.Resources []) :=
    (pass2_stable opts _ _ _ _ hp2).1
  have hres := (pass2_stable opts _ _ _ _ hp2).2
  have hfinnd : (keysOf st'.1).Nodup := by rw [hfinkeys]; exact hksnd
  constructor
  · intro hid kv hkv d hd
    rw [hgv] at hkv ⊢
    have hlk : lookupVertex st'.1 kv.1 = some kv.2 := lookup_of_mem_nodup st'.1 hfinnd kv hkv
    have hkm : kv.1 ∈ keysOf (pass1 opts.shortNodeName snap.Resources []) := by
      rw [← hfinkeys]
      exact List.mem_map_of_mem Prod.fst hkv
    have hres1 : resourceOf (pass1 opts.shortNodeName snap.Resources []) kv.1
        = some kv.2.resource := by
      rw [← hres kv.1, resourceOf, hlk]
      rfl
    cases hl0 : lookupVertex (pass1 opts.shortNodeName snap.Resources []) kv.1 with
    | none => rw [resourceOf, hl0] at hres1; exact absurd hres1 (by simp)
    | some v0 =>
      have hv0res : v0.resource = kv.2.resource := by
        rw [resourceOf, hl0] at hres1
        simpa using hres1
      have := pass2_some_resolve opts hid _ _ _ _ hp2 kv.1 hkm v0 hl0 d
        (by rw [hv0res]; exact hd)
      rw [hfinkeys, mem_keysOf_iff_isSome]
      exact this
  · intro hip kv hkv hpne hlooknone
    rw [hgv] at hkv hlooknone
    have hlk : lookupVertex st'.1 kv.1 = some kv.2 := lookup_of_mem_nodup st'.1 hfinnd kv hkv
    have hkm : kv.1 ∈ keysOf (pass1 opts.shortNodeName snap.Resources []) := by
      rw [← hfinkeys]
      exact List.mem_map_of_mem Prod.fst hkv
    have hres1 : resourceOf (pass1 opts.shortNodeName snap.Resources []) kv.1
        = some kv.2.resource := by
      rw [← hres kv.1, resourceOf, hlk]
      rfl
    cases hl0 : lookupVertex (pass1 opts.shortNodeName snap.Resources []) kv.1 with
    | none => rw [resourceOf, hl0] at hres1; exact absurd hres1 (by simp)
    | some v0 =>
      have hv0res : v0.resource = kv.2.resource := by
        rw [resourceOf, hl0] at hres1
        simpa using hres1
      have hv0out : v0.outgoingEdges = [] := by
        rw [pass1_lookup] at hl0
        cases hl : lastWithUrn snap.Resources kv.1 with
        | none => rw [hl] at hl0; simp [lookupVertex] at hl0
        | some r =>
          rw [hl] at hl0
          injection hl0 with hl0
          rw [← hl0]
          rfl
      obtain ⟨ce, hpar⟩ :=
        pass2_parent_char opts kv.1 hip _ _ _ _ _ hksnd hkm hp2 hl0
          (by rw [hv0res]; exact hpne)
      have hmiss : (lookupVertex (pass1 opts.shortNodeName snap.Resources [])
          v0.resource.Parent).isSome = false := by
        rw [← isSome_eq_of_keysOf_eq st'.1 _ hfinkeys, hv0res, hlooknone]
        rfl
      rw [hmiss] at hpar
      simp only [Bool.false_eq_true, if_false] at hpar
      have hinit : outParFilter (pass1 opts.shortNodeName snap.Resources []) kv.1
          = some [] := by
        unfold outParFilter outgoingOf
        rw [hl0]
        simp [hv0out]
      rw [hinit] at hpar
      simp only [Option.map_some', List.nil_append] at hpar
      rw [outParFilter, outgoingOf, hlk] at hpar
      have hfilter : kv.2.outgoingEdges.filter isParEdge =
          [GraphEdge.par
            { eid := ce, to_ := none, from_ := some kv.1, color := opts.parentEdgeColor }] := by
        simpa using hpar
      refine ⟨GraphEdge.par
        { eid := ce, to_ := none, from_ := some kv.1, color := opts.parentEdgeColor },
        ?_, rfl, rfl⟩
      apply List.mem_of_mem_filter (p := isParEdge)
      rw [hfilter]
      exact List.mem_singleton.mpr rfl

theorem stackgraph_referential_miss_witness :
    (makeDependencyGraph { Resources := [mkRes "a" [] [] "zz"] } optsDefault).isSome = true ∧
    ∀ g, makeDependencyGraph { Resources := [mkRes "a" [] [] "zz"] } optsDefault = some g →
      ∀ kv ∈ g.vertices, kv.2.resource.Parent ≠ "" →
        lookupVertex g.vertices kv.2.resource.Parent = none →
        ∃ e ∈ kv.2.outgoingEdges, isParEdge e = true ∧ GraphEdge.To e = none := by
  refine ⟨by decide, fun g hg => ?_⟩
  exact (stackgraph_referential_miss _ optsDefault g hg).2 rfl
